import Mathlib

set_option maxHeartbeats 1000000
set_option linter.unusedVariables false
set_option linter.unreachableTactic false
set_option linter.unusedTactic false

namespace JsonCompare

/-- JSON values as handled by the tool (src/src/json-compare.js).  The extra
constructor undef models the JavaScript undefined marker, which the compare
function treats alongside null on line 24.  Numbers are modelled as integers;
no claim in this development depends on floating-point behaviour. -/
inductive Json where
  | null
  | undef
  | bool (b : Bool)
  | num (n : Int)
  | str (s : String)
  | arr (elems : List Json)
  | obj (entries : List (String × Json))

mutual
/-- Structural size of a JSON value, used as the termination measure of the
comparator. -/
def jsize : Json → Nat
  | .null => 1
  | .undef => 1
  | .bool _ => 1
  | .num _ => 1
  | .str _ => 1
  | .arr xs => 1 + jsizeL xs
  | .obj kvs => 1 + jsizeKV kvs

/-- Summed size of a list of JSON values. -/
def jsizeL : List Json → Nat
  | [] => 0
  | x :: xs => jsize x + jsizeL xs

/-- Summed size of the values of an entry list. -/
def jsizeKV : List (String × Json) → Nat
  | [] => 0
  | kv :: kvs => jsize kv.2 + jsizeKV kvs
end

theorem jsize_pos (j : Json) : 0 < jsize j := by
  cases j <;> simp [jsize]

theorem jsize_le_of_mem {x : Json} {xs : List Json} (h : x ∈ xs) :
    jsize x ≤ jsizeL xs := by
  induction xs with
  | nil => cases h
  | cons y ys ih =>
    rcases List.mem_cons.1 h with rfl | h2
    · simp [jsizeL]
    · have := ih h2
      simp only [jsizeL]
      omega

theorem jsize_snd_le_of_mem {kv : String × Json} {kvs : List (String × Json)}
    (h : kv ∈ kvs) : jsize kv.2 ≤ jsizeKV kvs := by
  induction kvs with
  | nil => cases h
  | cons y ys ih =>
    rcases List.mem_cons.1 h with rfl | h2
    · simp [jsizeKV]
    · have := ih h2
      simp only [jsizeKV]
      omega

mutual
/-- Boolean equality on JSON values, mirroring strict equality on the
primitive cases and structural equality on containers. -/
def jeq : Json → Json → Bool
  | .null, .null => true
  | .undef, .undef => true
  | .bool a, .bool b => a == b
  | .num a, .num b => a == b
  | .str a, .str b => a == b
  | .arr xs, .arr ys => jeqL xs ys
  | .obj xs, .obj ys => jeqKV xs ys
  | _, _ => false

/-- Boolean equality on lists of JSON values. -/
def jeqL : List Json → List Json → Bool
  | [], [] => true
  | x :: xs, y :: ys => jeq x y && jeqL xs ys
  | _, _ => false

/-- Boolean equality on entry lists. -/
def jeqKV : List (String × Json) → List (String × Json) → Bool
  | [], [] => true
  | (k1, v1) :: xs, (k2, v2) :: ys => k1 == k2 && jeq v1 v2 && jeqKV xs ys
  | _, _ => false
end

theorem jeqL_iff_aux {xs : List Json}
    (ih : ∀ x ∈ xs, ∀ c : Json, (jeq x c = true ↔ x = c)) (ys : List Json) :
    jeqL xs ys = true ↔ xs = ys := by
  induction xs generalizing ys with
  | nil => cases ys <;> simp [jeqL]
  | cons x xs ih2 =>
    cases ys with
    | nil => simp [jeqL]
    | cons y ys =>
      have hx := ih x (by simp) y
      have hrest := ih2 (fun z hz c => ih z (by simp [hz]) c) ys
      simp [jeqL, hx, hrest]

theorem jeqKV_iff_aux {xs : List (String × Json)}
    (ih : ∀ kv ∈ xs, ∀ c : Json, (jeq kv.2 c = true ↔ kv.2 = c))
    (ys : List (String × Json)) :
    jeqKV xs ys = true ↔ xs = ys := by
  induction xs generalizing ys with
  | nil => cases ys <;> simp [jeqKV]
  | cons x xs ih2 =>
    obtain ⟨k1, v1⟩ := x
    cases ys with
    | nil => simp [jeqKV]
    | cons y ys =>
      obtain ⟨k2, v2⟩ := y
      have hx := ih (k1, v1) (by simp) v2
      have hrest := ih2 (fun z hz c => ih z (by simp [hz]) c) ys
      simp [jeqKV, hx, hrest, Prod.ext_iff, and_assoc]

theorem jeq_iff_sized : ∀ n, ∀ a b : Json, jsize a ≤ n → (jeq a b = true ↔ a = b) := by
  intro n
  induction n using Nat.strong_induction_on with
  | _ n IH =>
    intro a b hle
    cases a with
    | null => cases b <;> simp [jeq]
    | undef => cases b <;> simp [jeq]
    | bool x => cases b <;> simp [jeq]
    | num x => cases b <;> simp [jeq]
    | str x => cases b <;> simp [jeq]
    | arr xs =>
      have hx : ∀ x ∈ xs, ∀ c : Json, (jeq x c = true ↔ x = c) := by
        intro x hmem c
        have h1 : jsize x ≤ jsizeL xs := jsize_le_of_mem hmem
        have h2 : jsize x < n := by
          have := jsize_pos x
          simp only [jsize] at hle
          omega
        exact IH (jsize x) h2 x c le_rfl
      cases b <;> simp [jeq, jeqL_iff_aux hx]
    | obj kvs =>
      have hx : ∀ kv ∈ kvs, ∀ c : Json, (jeq kv.2 c = true ↔ kv.2 = c) := by
        intro kv hmem c
        have h1 : jsize kv.2 ≤ jsizeKV kvs := jsize_snd_le_of_mem hmem
        have h2 : jsize kv.2 < n := by
          have := jsize_pos kv.2
          simp only [jsize] at hle
          omega
        exact IH (jsize kv.2) h2 kv.2 c le_rfl
      cases b <;> simp [jeq, jeqKV_iff_aux hx]

theorem jeq_iff (a b : Json) : jeq a b = true ↔ a = b :=
  jeq_iff_sized (jsize a) a b le_rfl

instance : DecidableEq Json := fun a b => decidable_of_iff _ (jeq_iff a b)

/-- JavaScript typeof restricted to the values above: null and arrays both
report "object", mirroring the dynamic tags the comparator branches on. -/
def jsTypeof : Json → String
  | .null => "object"
  | .undef => "undefined"
  | .bool _ => "boolean"
  | .num _ => "number"
  | .str _ => "string"
  | .arr _ => "object"
  | .obj _ => "object"

/-- The null/undefined test of line 24 of src/src/json-compare.js. -/
def isNullish : Json → Bool
  | .null => true
  | .undef => true
  | _ => false

/-- The JavaScript expression path || root used when recording a difference
(lines 27, 39, 62): an empty path renders as the literal token root. -/
def orRoot (path : String) : String :=
  if path = "" then "root" else path

/-- Array test mirroring Array.isArray. -/
def isArr : Json → Bool
  | .arr _ => true
  | _ => false

/-- Element list of an array value (empty for non-arrays). -/
def arrElems : Json → List Json
  | .arr xs => xs
  | _ => []

/-- The key/value view a JavaScript object walk sees: arrays expose their
index positions as string keys (Object.keys of an array), objects expose
their entries.  This is what compareObjects operates on when the comparator
hands it an array paired with a plain object. -/
def objEntries : Json → List (String × Json)
  | .arr xs => (List.enum xs).map fun p => (toString p.1, p.2)
  | .obj kvs => kvs
  | _ => []

/-- Property read by string key, first match wins; a missing key reads as the
JavaScript undefined value. -/
def getKey : List (String × Json) → String → Json
  | [], _ => .undef
  | (k, v) :: rest, key => if k = key then v else getKey rest key

/-- One fold step of the JavaScript Set-based key union: keep the first
occurrence of each key, in insertion order. -/
def addKey (acc : List String) (k : String) : List String :=
  if k ∈ acc then acc else acc ++ [k]

/-- Key union in first-occurrence order, as built by new Set on line 95 of
src/src/json-compare.js. -/
def unionKeys (ks : List String) : List String :=
  ks.foldl addKey []

/-- One difference record as pushed onto this.differences.  The type_change
record stores each side's typeof tag together with the value, exactly like
the object literal on lines 38-43 of src/src/json-compare.js. -/
inductive Diff where
  | valueChange (path : String) (left right : Json)
  | typeChange (path : String) (leftType : String) (leftVal : Json)
      (rightType : String) (rightVal : Json)
  | added (path : String) (right : Json)
  | removed (path : String) (left : Json)
deriving DecidableEq

/-- The path field of a difference record. -/
def Diff.path : Diff → String
  | .valueChange p _ _ => p
  | .typeChange p _ _ _ _ => p
  | .added p _ => p
  | .removed p _ => p

/-- Recogniser for type_change records. -/
def Diff.isTypeChange : Diff → Bool
  | .typeChange _ _ _ _ _ => true
  | _ => false

theorem jsize_getD_le {xs : List Json} {i : Nat} (h : i < xs.length) :
    jsize (xs.getD i .undef) ≤ jsizeL xs := by
  have hx : xs.getD i Json.undef = xs[i] := List.getD_eq_getElem xs Json.undef h
  rw [hx]
  exact jsize_le_of_mem (List.getElem_mem h)

theorem jsize_getKey_le {es : List (String × Json)} {k : String}
    (h : k ∈ es.map Prod.fst) : jsize (getKey es k) ≤ jsizeKV es := by
  induction es with
  | nil => cases h
  | cons kv rest ih =>
    obtain ⟨k0, v0⟩ := kv
    simp only [getKey]
    by_cases hk : k0 = k
    · rw [if_pos hk]
      simp only [jsizeKV]
      omega
    · rw [if_neg hk]
      have h2 : k ∈ rest.map Prod.fst := by
        simp only [List.map_cons, List.mem_cons] at h
        rcases h with h3 | h3
        · exact absurd h3.symm hk
        · exact h3
      have := ih h2
      simp only [jsizeKV]
      omega

theorem jsizeKV_enumFrom (xs : List Json) (n : Nat) :
    jsizeKV ((List.enumFrom n xs).map fun p => (toString p.1, p.2)) = jsizeL xs := by
  induction xs generalizing n with
  | nil => simp [jsizeKV, jsizeL]
  | cons x rest ih => simp [List.enumFrom, jsizeKV, jsizeL, ih]

theorem jsizeKV_objEntries_lt (j : Json) : jsizeKV (objEntries j) < jsize j := by
  cases j with
  | arr xs =>
    have h := jsizeKV_enumFrom xs 0
    simp [objEntries, List.enum, jsize, h]
  | obj kvs => simp [objEntries, jsize]
  | null => simp [objEntries, jsize, jsizeKV]
  | undef => simp [objEntries, jsize, jsizeKV]
  | bool b => simp [objEntries, jsize, jsizeKV]
  | num n => simp [objEntries, jsize, jsizeKV]
  | str s => simp [objEntries, jsize, jsizeKV]

theorem jsizeL_arrElems_lt (j : Json) : jsizeL (arrElems j) < jsize j := by
  cases j <;> simp [arrElems, jsize, jsizeL]

mutual
/-- Translation of JsonCompare.compare, src/src/json-compare.js lines 22-68.
The branches appear in source order: the null/undefined check, the typeof
mismatch check, the two-array case, the two-object case (note that an array
paired with a plain object lands here, because both have typeof "object"),
and finally the strict primitive comparison. -/
def compare (l r : Json) (path : String) : List Diff :=
  if isNullish l || isNullish r then
    if l ≠ r then [.valueChange (orRoot path) l r] else []
  else if jsTypeof l ≠ jsTypeof r then
    [.typeChange (orRoot path) (jsTypeof l) l (jsTypeof r) r]
  else if isArr l && isArr r then
    compareArrays (arrElems l) (arrElems r) path
  else if jsTypeof l = "object" && jsTypeof r = "object" then
    compareObjects (objEntries l) (objEntries r) path
  else if l ≠ r then [.valueChange (orRoot path) l r] else []
termination_by jsize l + jsize r
decreasing_by
  · have h1 := jsizeL_arrElems_lt l
    have h2 := jsizeL_arrElems_lt r
    omega
  · have h1 := jsizeKV_objEntries_lt l
    have h2 := jsizeKV_objEntries_lt r
    omega

/-- Translation of JsonCompare.compareArrays, lines 70-92: a strictly
positional walk of indices 0 to max(len, len) - 1.  The JavaScript template
literal builds path[i] whether or not path is empty, which is plain string
concatenation here.  Out-of-range reads yield the undefined marker exactly
as in JavaScript (they only occur in the added/removed branches). -/
def compareArrays (ls rs : List Json) (path : String) : List Diff :=
  (List.range (max ls.length rs.length)).flatMap fun i =>
    let currentPath := path ++ "[" ++ toString i ++ "]"
    if h1 : ls.length ≤ i then
      [.added currentPath (rs.getD i .undef)]
    else if h2 : rs.length ≤ i then
      [.removed currentPath (ls.getD i .undef)]
    else
      compare (ls.getD i .undef) (rs.getD i .undef) currentPath
termination_by jsizeL ls + jsizeL rs + 1
decreasing_by
  have hl : jsize (ls.getD i Json.undef) ≤ jsizeL ls :=
    jsize_getD_le (Nat.lt_of_not_le h1)
  have hr : jsize (rs.getD i Json.undef) ≤ jsizeL rs :=
    jsize_getD_le (Nat.lt_of_not_le h2)
  omega

/-- Translation of JsonCompare.compareObjects, lines 94-116: walk the key
union in first-occurrence order; a key missing on the left is an addition,
missing on the right a removal, present on both recurses. -/
def compareObjects (les res : List (String × Json)) (path : String) : List Diff :=
  (unionKeys (les.map Prod.fst ++ res.map Prod.fst)).flatMap fun k =>
    let currentPath := if path = "" then k else path ++ "." ++ k
    if h1 : k ∈ les.map Prod.fst then
      if h2 : k ∈ res.map Prod.fst then
        compare (getKey les k) (getKey res k) currentPath
      else
        [.removed currentPath (getKey les k)]
    else
      [.added currentPath (getKey res k)]
termination_by jsizeKV les + jsizeKV res + 1
decreasing_by
  have hl : jsize (getKey les k) ≤ jsizeKV les := jsize_getKey_le h1
  have hr : jsize (getKey res k) ≤ jsizeKV res := jsize_getKey_le h2
  omega
end

theorem compare_null_left (r : Json) (p : String) :
    compare .null r p =
      if Json.null = r then [] else [.valueChange (orRoot p) .null r] := by
  rw [compare]
  by_cases h : Json.null = r <;> simp [isNullish, h]

theorem compare_undef_left (r : Json) (p : String) :
    compare .undef r p =
      if Json.undef = r then [] else [.valueChange (orRoot p) .undef r] := by
  rw [compare]
  by_cases h : Json.undef = r <;> simp [isNullish, h]

theorem compare_null_right {l : Json} (h : isNullish l = false) (p : String) :
    compare l .null p = [.valueChange (orRoot p) l .null] := by
  have hne : l ≠ Json.null := by rintro rfl; simp [isNullish] at h
  rw [compare]
  simp [isNullish, hne]

theorem compare_undef_right {l : Json} (h : isNullish l = false) (p : String) :
    compare l .undef p = [.valueChange (orRoot p) l .undef] := by
  have hne : l ≠ Json.undef := by rintro rfl; simp [isNullish] at h
  rw [compare]
  simp [isNullish, hne]

theorem compare_bool_bool (a b : Bool) (p : String) :
    compare (.bool a) (.bool b) p =
      if a = b then [] else [.valueChange (orRoot p) (.bool a) (.bool b)] := by
  rw [compare]
  by_cases h : a = b <;> simp [isNullish, jsTypeof, isArr, h]

theorem compare_num_num (a b : Int) (p : String) :
    compare (.num a) (.num b) p =
      if a = b then [] else [.valueChange (orRoot p) (.num a) (.num b)] := by
  rw [compare]
  by_cases h : a = b <;> simp [isNullish, jsTypeof, isArr, h]

theorem compare_str_str (a b : String) (p : String) :
    compare (.str a) (.str b) p =
      if a = b then [] else [.valueChange (orRoot p) (.str a) (.str b)] := by
  rw [compare]
  by_cases h : a = b <;> simp [isNullish, jsTypeof, isArr, h]

theorem compare_arr_arr (ls rs : List Json) (p : String) :
    compare (.arr ls) (.arr rs) p = compareArrays ls rs p := by
  rw [compare]
  simp [isNullish, jsTypeof, isArr, arrElems]

theorem compare_obj_obj (ls rs : List (String × Json)) (p : String) :
    compare (.obj ls) (.obj rs) p = compareObjects ls rs p := by
  rw [compare]
  simp [isNullish, jsTypeof, isArr, objEntries]

theorem compare_arr_obj (ls : List Json) (rs : List (String × Json)) (p : String) :
    compare (.arr ls) (.obj rs) p = compareObjects (objEntries (.arr ls)) rs p := by
  rw [compare]
  simp [isNullish, jsTypeof, isArr, objEntries]

theorem compare_obj_arr (ls : List (String × Json)) (rs : List Json) (p : String) :
    compare (.obj ls) (.arr rs) p = compareObjects ls (objEntries (.arr rs)) p := by
  rw [compare]
  simp [isNullish, jsTypeof, isArr, objEntries]

theorem compare_type_mismatch {l r : Json} (h1 : isNullish l = false)
    (h2 : isNullish r = false) (h : jsTypeof l ≠ jsTypeof r) (p : String) :
    compare l r p = [.typeChange (orRoot p) (jsTypeof l) l (jsTypeof r) r] := by
  rw [compare]
  simp [h1, h2, h]

/-- One step of a structural path: an object member key or an array index.
The JavaScript code only ever stores the rendered string; this structural
form makes it possible to talk about the tree position a difference was
emitted at, independently of how keys render. -/
inductive PathStep where
  | key (k : String)
  | idx (i : Nat)
deriving DecidableEq

/-- String rendering of one more path step, exactly as the code builds the
currentPath strings: an index appends the bracketed form, a key appends a
dot-separated member name (bare at the root). -/
def extendPath (path : String) : PathStep → String
  | .idx i => path ++ "[" ++ toString i ++ "]"
  | .key k => if path = "" then k else path ++ "." ++ k

/-- Rendering of a structural path from the root. -/
def renderPath (p : List PathStep) : String :=
  p.foldl extendPath ""

theorem renderPath_nil : renderPath [] = "" := rfl

theorem renderPath_snoc (p : List PathStep) (st : PathStep) :
    renderPath (p ++ [st]) = extendPath (renderPath p) st := by
  simp [renderPath, List.foldl_append]

/-- Difference records carrying structural positions instead of rendered
strings. -/
inductive DiffP where
  | valueChange (path : List PathStep) (left right : Json)
  | typeChange (path : List PathStep) (leftType : String) (leftVal : Json)
      (rightType : String) (rightVal : Json)
  | added (path : List PathStep) (right : Json)
  | removed (path : List PathStep) (left : Json)
deriving DecidableEq

/-- The structural position of a difference. -/
def DiffP.path : DiffP → List PathStep
  | .valueChange p _ _ => p
  | .typeChange p _ _ _ _ => p
  | .added p _ => p
  | .removed p _ => p

/-- Rendering a structural difference into the record the code pushes: the
value_change and type_change sites go through path || root, the added and
removed sites use the freshly built child path verbatim. -/
def stringifyDiff : DiffP → Diff
  | .valueChange p l r => .valueChange (orRoot (renderPath p)) l r
  | .typeChange p lt lv rt rv => .typeChange (orRoot (renderPath p)) lt lv rt rv
  | .added p x => .added (renderPath p) x
  | .removed p x => .removed (renderPath p) x

/-- Left/right reversal of a structural difference record. -/
def swapP : DiffP → DiffP
  | .valueChange p l r => .valueChange p r l
  | .typeChange p lt lv rt rv => .typeChange p rt rv lt lv
  | .added p x => .removed p x
  | .removed p x => .added p x

/-- Left/right reversal of a rendered difference record: additions and
removals trade places and the two payload sides swap. -/
def swapDiff : Diff → Diff
  | .valueChange p l r => .valueChange p r l
  | .typeChange p lt lv rt rv => .typeChange p rt rv lt lv
  | .added p x => .removed p x
  | .removed p x => .added p x

mutual
/-- The comparator of src/src/json-compare.js with structural instead of
rendered paths; compare_eq_stringify below proves it tracks compare. -/
def compareP (l r : Json) (p : List PathStep) : List DiffP :=
  if isNullish l || isNullish r then
    if l ≠ r then [.valueChange p l r] else []
  else if jsTypeof l ≠ jsTypeof r then
    [.typeChange p (jsTypeof l) l (jsTypeof r) r]
  else if isArr l && isArr r then
    compareArraysP (arrElems l) (arrElems r) p
  else if jsTypeof l = "object" && jsTypeof r = "object" then
    compareObjectsP (objEntries l) (objEntries r) p
  else if l ≠ r then [.valueChange p l r] else []
termination_by jsize l + jsize r
decreasing_by
  · have h1 := jsizeL_arrElems_lt l
    have h2 := jsizeL_arrElems_lt r
    omega
  · have h1 := jsizeKV_objEntries_lt l
    have h2 := jsizeKV_objEntries_lt r
    omega

/-- Structural-path twin of compareArrays. -/
def compareArraysP (ls rs : List Json) (p : List PathStep) : List DiffP :=
  (List.range (max ls.length rs.length)).flatMap fun i =>
    if h1 : ls.length ≤ i then
      [.added (p ++ [.idx i]) (rs.getD i .undef)]
    else if h2 : rs.length ≤ i then
      [.removed (p ++ [.idx i]) (ls.getD i .undef)]
    else
      compareP (ls.getD i .undef) (rs.getD i .undef) (p ++ [.idx i])
termination_by jsizeL ls + jsizeL rs + 1
decreasing_by
  have hl : jsize (ls.getD i Json.undef) ≤ jsizeL ls :=
    jsize_getD_le (Nat.lt_of_not_le h1)
  have hr : jsize (rs.getD i Json.undef) ≤ jsizeL rs :=
    jsize_getD_le (Nat.lt_of_not_le h2)
  omega

/-- Structural-path twin of compareObjects. -/
def compareObjectsP (les res : List (String × Json)) (p : List PathStep) : List DiffP :=
  (unionKeys (les.map Prod.fst ++ res.map Prod.fst)).flatMap fun k =>
    if h1 : k ∈ les.map Prod.fst then
      if h2 : k ∈ res.map Prod.fst then
        compareP (getKey les k) (getKey res k) (p ++ [.key k])
      else
        [.removed (p ++ [.key k]) (getKey les k)]
    else
      [.added (p ++ [.key k]) (getKey res k)]
termination_by jsizeKV les + jsizeKV res + 1
decreasing_by
  have hl : jsize (getKey les k) ≤ jsizeKV les := jsize_getKey_le h1
  have hr : jsize (getKey res k) ≤ jsizeKV res := jsize_getKey_le h2
  omega
end

theorem compareArrays_sim {N : Nat} {ls rs : List Json}
    (IH : ∀ x y : Json, jsize x + jsize y < N → ∀ q,
      compare x y (renderPath q) = (compareP x y q).map stringifyDiff)
    (hsz : jsizeL ls + jsizeL rs < N) (pl : List PathStep) :
    compareArrays ls rs (renderPath pl) = (compareArraysP ls rs pl).map stringifyDiff := by
  rw [compareArrays, compareArraysP, List.map_flatMap]
  apply List.flatMap_congr
  intro i _
  by_cases h1 : ls.length ≤ i
  · simp [h1, stringifyDiff, renderPath_snoc, extendPath]
  · by_cases h2 : rs.length ≤ i
    · simp [h1, h2, stringifyDiff, renderPath_snoc, extendPath]
    · have hx : jsize (ls.getD i Json.undef) ≤ jsizeL ls :=
        jsize_getD_le (Nat.lt_of_not_le h1)
      have hy : jsize (rs.getD i Json.undef) ≤ jsizeL rs :=
        jsize_getD_le (Nat.lt_of_not_le h2)
      have hrec := IH (ls.getD i .undef) (rs.getD i .undef) (by omega) (pl ++ [.idx i])
      rw [renderPath_snoc] at hrec
      simp [h1, h2, extendPath] at hrec ⊢
      exact hrec

theorem compareObjects_sim {N : Nat} {les res : List (String × Json)}
    (IH : ∀ x y : Json, jsize x + jsize y < N → ∀ q,
      compare x y (renderPath q) = (compareP x y q).map stringifyDiff)
    (hsz : jsizeKV les + jsizeKV res < N) (pl : List PathStep) :
    compareObjects les res (renderPath pl) = (compareObjectsP les res pl).map stringifyDiff := by
  rw [compareObjects, compareObjectsP, List.map_flatMap]
  apply List.flatMap_congr
  intro k _
  by_cases h1 : k ∈ les.map Prod.fst
  · by_cases h2 : k ∈ res.map Prod.fst
    · have hx : jsize (getKey les k) ≤ jsizeKV les := jsize_getKey_le h1
      have hy : jsize (getKey res k) ≤ jsizeKV res := jsize_getKey_le h2
      have hrec := IH (getKey les k) (getKey res k) (by omega) (pl ++ [.key k])
      rw [renderPath_snoc] at hrec
      simp [h1, h2, extendPath] at hrec ⊢
      exact hrec
    · simp [h1, h2, stringifyDiff, renderPath_snoc, extendPath]
  · simp [h1, stringifyDiff, renderPath_snoc, extendPath]

theorem compare_sim_sized :
    ∀ N, ∀ l r : Json, jsize l + jsize r ≤ N → ∀ pl,
      compare l r (renderPath pl) = (compareP l r pl).map stringifyDiff := by
  intro N
  induction N using Nat.strong_induction_on with
  | _ N IH =>
    intro l r hle pl
    have IH2 : ∀ x y : Json, jsize x + jsize y < N → ∀ q,
        compare x y (renderPath q) = (compareP x y q).map stringifyDiff := by
      intro x y hxy q
      exact IH (jsize x + jsize y) hxy x y le_rfl q
    rw [compare, compareP]
    split_ifs with hnull hne htype harr hobj hne2
    · simp [stringifyDiff]
    · simp
    · simp [stringifyDiff]
    · refine compareArrays_sim IH2 ?_ pl
      have ha := jsizeL_arrElems_lt l
      have hb := jsizeL_arrElems_lt r
      omega
    · refine compareObjects_sim IH2 ?_ pl
      have ha := jsizeKV_objEntries_lt l
      have hb := jsizeKV_objEntries_lt r
      omega
    · simp [stringifyDiff]
    · simp

theorem compare_eq_stringify (l r : Json) (pl : List PathStep) :
    compare l r (renderPath pl) = (compareP l r pl).map stringifyDiff :=
  compare_sim_sized (jsize l + jsize r) l r le_rfl pl

theorem renderPath_key (s : String) : renderPath [PathStep.key s] = s := by
  simp [renderPath, extendPath]

theorem compare_eq_stringify_any (l r : Json) (s : String) :
    compare l r s = (compareP l r [PathStep.key s]).map stringifyDiff := by
  have h := compare_eq_stringify l r [PathStep.key s]
  rwa [renderPath_key] at h

theorem mem_addKey {acc : List String} {a k : String} :
    k ∈ addKey acc a ↔ k ∈ acc ∨ k = a := by
  by_cases h : a ∈ acc
  · simp only [addKey, if_pos h]
    constructor
    · exact fun hk => Or.inl hk
    · rintro (hk | rfl)
      · exact hk
      · exact h
  · simp [addKey, if_neg h]

theorem mem_foldl_addKey : ∀ (ks acc : List String) (k : String),
    k ∈ ks.foldl addKey acc ↔ k ∈ acc ∨ k ∈ ks := by
  intro ks
  induction ks with
  | nil => simp
  | cons a ks ih =>
    intro acc k
    simp only [List.foldl_cons, ih (addKey acc a) k, mem_addKey, List.mem_cons]
    tauto

theorem mem_unionKeys {ks : List String} {k : String} :
    k ∈ unionKeys ks ↔ k ∈ ks := by
  simp [unionKeys, mem_foldl_addKey]

theorem nodup_foldl_addKey : ∀ (ks acc : List String), acc.Nodup →
    (ks.foldl addKey acc).Nodup := by
  intro ks
  induction ks with
  | nil => simp
  | cons a ks ih =>
    intro acc hacc
    simp only [List.foldl_cons]
    apply ih
    by_cases h : a ∈ acc
    · simpa [addKey, if_pos h]
    · simp only [addKey, if_neg h]
      simpa [List.nodup_append, h] using hacc

theorem nodup_unionKeys (ks : List String) : (unionKeys ks).Nodup :=
  nodup_foldl_addKey ks [] List.nodup_nil

theorem compareArraysP_refl {N : Nat} {xs : List Json} (hsz : jsizeL xs < N)
    (IH : ∀ y : Json, jsize y < N → ∀ q, compareP y y q = []) (pl : List PathStep) :
    compareArraysP xs xs pl = [] := by
  rw [compareArraysP]
  refine List.flatMap_eq_nil_iff.mpr ?_
  intro i hi
  have hlt : i < xs.length := by simpa using hi
  have h1 : ¬ xs.length ≤ i := Nat.not_le.mpr hlt
  have hsize : jsize (xs.getD i Json.undef) ≤ jsizeL xs := jsize_getD_le hlt
  simp only [dif_neg h1]
  exact IH (xs.getD i .undef) (by omega) (pl ++ [.idx i])

theorem compareObjectsP_refl {N : Nat} {les : List (String × Json)}
    (hsz : jsizeKV les < N)
    (IH : ∀ y : Json, jsize y < N → ∀ q, compareP y y q = []) (pl : List PathStep) :
    compareObjectsP les les pl = [] := by
  rw [compareObjectsP]
  refine List.flatMap_eq_nil_iff.mpr ?_
  intro k hk
  have hmem : k ∈ les.map Prod.fst := by
    rcases (List.mem_append.1 (mem_unionKeys.1 hk)) with h | h <;> exact h
  have hsize : jsize (getKey les k) ≤ jsizeKV les := jsize_getKey_le hmem
  simp only [dif_pos hmem]
  exact IH (getKey les k) (by omega) (pl ++ [.key k])

theorem compareP_refl_sized :
    ∀ N, ∀ x : Json, jsize x ≤ N → ∀ pl, compareP x x pl = [] := by
  intro N
  induction N using Nat.strong_induction_on with
  | _ N IH =>
    intro x hle pl
    have IH2 : ∀ y : Json, jsize y < N → ∀ q, compareP y y q = [] := by
      intro y hy q
      exact IH (jsize y) hy y le_rfl q
    rw [compareP]
    split_ifs with h1 h2 h3 h4 h5 h6
    · exact absurd rfl h2
    · rfl
    · exact absurd rfl h3
    · refine compareArraysP_refl ?_ IH2 pl
      have := jsizeL_arrElems_lt x
      omega
    · refine compareObjectsP_refl ?_ IH2 pl
      have := jsizeKV_objEntries_lt x
      omega
    · exact absurd rfl h6
    · rfl

theorem compareP_refl (x : Json) (pl : List PathStep) : compareP x x pl = [] :=
  compareP_refl_sized (jsize x) x le_rfl pl

theorem compare_self (x : Json) (s : String) : compare x x s = [] := by
  rw [compare_eq_stringify_any, compareP_refl]
  rfl

theorem cP_null_left (r : Json) (pl : List PathStep) :
    compareP .null r pl =
      if Json.null = r then [] else [.valueChange pl .null r] := by
  rw [compareP]
  by_cases h : Json.null = r <;> simp [isNullish, h]

theorem cP_undef_left (r : Json) (pl : List PathStep) :
    compareP .undef r pl =
      if Json.undef = r then [] else [.valueChange pl .undef r] := by
  rw [compareP]
  by_cases h : Json.undef = r <;> simp [isNullish, h]

theorem cP_null_right {l : Json} (h : isNullish l = false) (pl : List PathStep) :
    compareP l .null pl = [.valueChange pl l .null] := by
  have hne : l ≠ Json.null := by rintro rfl; simp [isNullish] at h
  rw [compareP]
  simp [isNullish, hne]

theorem cP_undef_right {l : Json} (h : isNullish l = false) (pl : List PathStep) :
    compareP l .undef pl = [.valueChange pl l .undef] := by
  have hne : l ≠ Json.undef := by rintro rfl; simp [isNullish] at h
  rw [compareP]
  simp [isNullish, hne]

theorem cP_bool_bool (a b : Bool) (pl : List PathStep) :
    compareP (.bool a) (.bool b) pl =
      if a = b then [] else [.valueChange pl (.bool a) (.bool b)] := by
  rw [compareP]
  by_cases h : a = b <;> simp [isNullish, jsTypeof, isArr, h]

theorem cP_num_num (a b : Int) (pl : List PathStep) :
    compareP (.num a) (.num b) pl =
      if a = b then [] else [.valueChange pl (.num a) (.num b)] := by
  rw [compareP]
  by_cases h : a = b <;> simp [isNullish, jsTypeof, isArr, h]

theorem cP_str_str (a b : String) (pl : List PathStep) :
    compareP (.str a) (.str b) pl =
      if a = b then [] else [.valueChange pl (.str a) (.str b)] := by
  rw [compareP]
  by_cases h : a = b <;> simp [isNullish, jsTypeof, isArr, h]

theorem cP_arr_arr (ls rs : List Json) (pl : List PathStep) :
    compareP (.arr ls) (.arr rs) pl = compareArraysP ls rs pl := by
  rw [compareP]
  simp [isNullish, jsTypeof, isArr, arrElems]

theorem cP_obj_obj (ls rs : List (String × Json)) (pl : List PathStep) :
    compareP (.obj ls) (.obj rs) pl = compareObjectsP ls rs pl := by
  rw [compareP]
  simp [isNullish, jsTypeof, isArr, objEntries]

theorem cP_arr_obj (ls : List Json) (rs : List (String × Json)) (pl : List PathStep) :
    compareP (.arr ls) (.obj rs) pl = compareObjectsP (objEntries (.arr ls)) rs pl := by
  rw [compareP]
  simp [isNullish, jsTypeof, isArr, objEntries]

theorem cP_obj_arr (ls : List (String × Json)) (rs : List Json) (pl : List PathStep) :
    compareP (.obj ls) (.arr rs) pl = compareObjectsP ls (objEntries (.arr rs)) pl := by
  rw [compareP]
  simp [isNullish, jsTypeof, isArr, objEntries]

theorem cP_type_mismatch {l r : Json} (h1 : isNullish l = false)
    (h2 : isNullish r = false) (h : jsTypeof l ≠ jsTypeof r) (pl : List PathStep) :
    compareP l r pl = [.typeChange pl (jsTypeof l) l (jsTypeof r) r] := by
  rw [compareP]
  simp [h1, h2, h]

theorem jsizeKV_objEntries_arr (xs : List Json) :
    jsizeKV (objEntries (.arr xs)) = jsizeL xs := by
  simp [objEntries, List.enum, jsizeKV_enumFrom]

theorem compareArraysP_symm {N : Nat} {ls rs : List Json}
    (hsz : jsizeL ls + jsizeL rs < N)
    (IH : ∀ x y : Json, jsize x + jsize y < N → ∀ q,
      List.Perm (compareP y x q) ((compareP x y q).map swapP)) (pl : List PathStep) :
    List.Perm (compareArraysP rs ls pl) ((compareArraysP ls rs pl).map swapP) := by
  rw [compareArraysP, compareArraysP, List.map_flatMap, Nat.max_comm rs.length ls.length]
  refine List.Perm.flatMap_left _ ?_
  intro i hi
  have himax : i < max ls.length rs.length := List.mem_range.1 hi
  by_cases h1 : ls.length ≤ i
  · have h2 : ¬ rs.length ≤ i := by omega
    simp only [dif_neg h2, dif_pos h1]
    exact List.Perm.of_eq (by simp [swapP])
  · by_cases h2 : rs.length ≤ i
    · simp only [dif_pos h2, dif_neg h1]
      exact List.Perm.of_eq (by simp [swapP])
    · simp only [dif_neg h1, dif_neg h2]
      have hx : jsize (ls.getD i Json.undef) ≤ jsizeL ls :=
        jsize_getD_le (Nat.lt_of_not_le h1)
      have hy : jsize (rs.getD i Json.undef) ≤ jsizeL rs :=
        jsize_getD_le (Nat.lt_of_not_le h2)
      exact IH (ls.getD i .undef) (rs.getD i .undef) (by omega) (pl ++ [.idx i])

theorem compareObjectsP_symm {N : Nat} {les res : List (String × Json)}
    (hsz : jsizeKV les + jsizeKV res < N)
    (IH : ∀ x y : Json, jsize x + jsize y < N → ∀ q,
      List.Perm (compareP y x q) ((compareP x y q).map swapP)) (pl : List PathStep) :
    List.Perm (compareObjectsP res les pl) ((compareObjectsP les res pl).map swapP) := by
  rw [compareObjectsP, compareObjectsP, List.map_flatMap]
  have hperm : List.Perm (unionKeys (res.map Prod.fst ++ les.map Prod.fst))
      (unionKeys (les.map Prod.fst ++ res.map Prod.fst)) := by
    refine (List.perm_ext_iff_of_nodup (nodup_unionKeys _) (nodup_unionKeys _)).mpr ?_
    intro a
    simp only [mem_unionKeys, List.mem_append]
    tauto
  refine (hperm.flatMap_right _).trans ?_
  refine List.Perm.flatMap_left _ ?_
  intro k hk
  have hmem : k ∈ les.map Prod.fst ∨ k ∈ res.map Prod.fst := by
    simpa [mem_unionKeys, List.mem_append] using hk
  by_cases h1 : k ∈ les.map Prod.fst
  · by_cases h2 : k ∈ res.map Prod.fst
    · simp only [dif_pos h1, dif_pos h2]
      have hx : jsize (getKey les k) ≤ jsizeKV les := jsize_getKey_le h1
      have hy : jsize (getKey res k) ≤ jsizeKV res := jsize_getKey_le h2
      exact IH (getKey les k) (getKey res k) (by omega) (pl ++ [.key k])
    · simp only [dif_pos h1, dif_neg h2]
      exact List.Perm.of_eq (by simp [swapP])
  · have h2 : k ∈ res.map Prod.fst := hmem.resolve_left h1
    simp only [dif_neg h1, dif_pos h2]
    exact List.Perm.of_eq (by simp [swapP])

theorem compareP_symm_sized : ∀ N, ∀ a b : Json, jsize a + jsize b ≤ N →
    ∀ pl, List.Perm (compareP b a pl) ((compareP a b pl).map swapP) := by
  intro N
  induction N using Nat.strong_induction_on with
  | _ N IH =>
    intro a b hle pl
    have IH2 : ∀ x y : Json, jsize x + jsize y < N → ∀ q,
        List.Perm (compareP y x q) ((compareP x y q).map swapP) := fun x y hxy q =>
      IH (jsize x + jsize y) hxy x y le_rfl q
    by_cases hna : isNullish a = true
    · cases a with
      | null =>
        cases b <;> refine List.Perm.of_eq ?_ <;>
          simp [cP_null_left, cP_undef_left, cP_null_right, cP_undef_right, swapP, isNullish]
      | undef =>
        cases b <;> refine List.Perm.of_eq ?_ <;>
          simp [cP_null_left, cP_undef_left, cP_null_right, cP_undef_right, swapP, isNullish]
      | bool x => simp [isNullish] at hna
      | num x => simp [isNullish] at hna
      | str x => simp [isNullish] at hna
      | arr xs => simp [isNullish] at hna
      | obj kvs => simp [isNullish] at hna
    · have hna2 : isNullish a = false := by
        cases h : isNullish a
        · rfl
        · exact absurd h hna
      by_cases hnb : isNullish b = true
      · cases b with
        | null =>
          refine List.Perm.of_eq ?_
          have h1 : Json.null ≠ a := by rintro rfl; simp [isNullish] at hna2
          simp [cP_null_left, cP_null_right hna2, h1, swapP]
        | undef =>
          refine List.Perm.of_eq ?_
          have h1 : Json.undef ≠ a := by rintro rfl; simp [isNullish] at hna2
          simp [cP_undef_left, cP_undef_right hna2, h1, swapP]
        | bool x => simp [isNullish] at hnb
        | num x => simp [isNullish] at hnb
        | str x => simp [isNullish] at hnb
        | arr xs => simp [isNullish] at hnb
        | obj kvs => simp [isNullish] at hnb
      · have hnb2 : isNullish b = false := by
          cases h : isNullish b
          · rfl
          · exact absurd h hnb
        by_cases ht : jsTypeof a = jsTypeof b
        · cases a with
          | null => simp [isNullish] at hna2
          | undef => simp [isNullish] at hna2
          | bool x =>
            cases b with
            | bool y =>
              refine List.Perm.of_eq ?_
              rcases eq_or_ne x y with rfl | hne
              · simp [cP_bool_bool, swapP]
              · simp [cP_bool_bool, swapP, hne, hne.symm]
            | null => simp [isNullish] at hnb2
            | undef => simp [isNullish] at hnb2
            | num y => simp [jsTypeof] at ht
            | str y => simp [jsTypeof] at ht
            | arr ys => simp [jsTypeof] at ht
            | obj ys => simp [jsTypeof] at ht
          | num x =>
            cases b with
            | num y =>
              refine List.Perm.of_eq ?_
              rcases eq_or_ne x y with rfl | hne
              · simp [cP_num_num, swapP]
              · simp [cP_num_num, swapP, hne, hne.symm]
            | null => simp [isNullish] at hnb2
            | undef => simp [isNullish] at hnb2
            | bool y => simp [jsTypeof] at ht
            | str y => simp [jsTypeof] at ht
            | arr ys => simp [jsTypeof] at ht
            | obj ys => simp [jsTypeof] at ht
          | str x =>
            cases b with
            | str y =>
              refine List.Perm.of_eq ?_
              rcases eq_or_ne x y with rfl | hne
              · simp [cP_str_str, swapP]
              · simp [cP_str_str, swapP, hne, hne.symm]
            | null => simp [isNullish] at hnb2
            | undef => simp [isNullish] at hnb2
            | bool y => simp [jsTypeof] at ht
            | num y => simp [jsTypeof] at ht
            | arr ys => simp [jsTypeof] at ht
            | obj ys => simp [jsTypeof] at ht
          | arr xs =>
            cases b with
            | arr ys =>
              rw [cP_arr_arr, cP_arr_arr]
              refine compareArraysP_symm ?_ IH2 pl
              simp only [jsize] at hle
              omega
            | obj ys =>
              rw [cP_obj_arr, cP_arr_obj]
              refine compareObjectsP_symm ?_ IH2 pl
              rw [jsizeKV_objEntries_arr]
              simp only [jsize] at hle
              omega
            | null => simp [isNullish] at hnb2
            | undef => simp [isNullish] at hnb2
            | bool y => simp [jsTypeof] at ht
            | num y => simp [jsTypeof] at ht
            | str y => simp [jsTypeof] at ht
          | obj xs =>
            cases b with
            | obj ys =>
              rw [cP_obj_obj, cP_obj_obj]
              refine compareObjectsP_symm ?_ IH2 pl
              simp only [jsize] at hle
              omega
            | arr ys =>
              rw [cP_arr_obj, cP_obj_arr]
              refine compareObjectsP_symm ?_ IH2 pl
              rw [jsizeKV_objEntries_arr]
              simp only [jsize] at hle
              omega
            | null => simp [isNullish] at hnb2
            | undef => simp [isNullish] at hnb2
            | bool y => simp [jsTypeof] at ht
            | num y => simp [jsTypeof] at ht
            | str y => simp [jsTypeof] at ht
        · refine List.Perm.of_eq ?_
          rw [cP_type_mismatch hnb2 hna2 (Ne.symm ht) pl, cP_type_mismatch hna2 hnb2 ht pl]
          simp [swapP]

theorem compareP_symm (a b : Json) (pl : List PathStep) :
    List.Perm (compareP b a pl) ((compareP a b pl).map swapP) :=
  compareP_symm_sized (jsize a + jsize b) a b le_rfl pl

theorem stringify_swapP (d : DiffP) :
    stringifyDiff (swapP d) = swapDiff (stringifyDiff d) := by
  cases d <;> simp [stringifyDiff, swapP, swapDiff]

theorem compare_symm (a b : Json) (s : String) :
    List.Perm (compare b a s) ((compare a b s).map swapDiff) := by
  rw [compare_eq_stringify_any b a s, compare_eq_stringify_any a b s]
  have h1 := (compareP_symm a b [PathStep.key s]).map stringifyDiff
  refine h1.trans (List.Perm.of_eq ?_)
  simp only [List.map_map]
  exact List.map_congr_left fun d _ => by simp [Function.comp, stringify_swapP]

/-- One structural path extends another when the second is an initial
segment of the first (equality included). -/
def pathExtends (q p : List PathStep) : Prop := ∃ t, q = p ++ t

theorem pathExtends_refl (p : List PathStep) : pathExtends p p :=
  ⟨[], by simp⟩

theorem pathExtends_trans {x y z : List PathStep} (h1 : pathExtends x y)
    (h2 : pathExtends y z) : pathExtends x z := by
  obtain ⟨t1, rfl⟩ := h1
  obtain ⟨t2, rfl⟩ := h2
  exact ⟨t2 ++ t1, by simp⟩

theorem pathExtends_snoc (p : List PathStep) (s : PathStep) :
    pathExtends (p ++ [s]) p :=
  ⟨[s], rfl⟩

theorem pathExtends_incomp {p : List PathStep} {s1 s2 : PathStep}
    (hne : s1 ≠ s2) {x y : List PathStep} (hx : pathExtends x (p ++ [s1]))
    (hy : pathExtends y (p ++ [s2])) : ¬ pathExtends x y := by
  rintro ⟨u, rfl⟩
  obtain ⟨t1, h1⟩ := hx
  obtain ⟨t2, rfl⟩ := hy
  rw [List.append_assoc, List.append_assoc, List.append_assoc] at h1
  have h2 := List.append_cancel_left h1
  simp only [List.singleton_append, List.cons.injEq] at h2
  exact hne h2.1.symm

/-- Two difference records sit at incomparable structural positions: neither
path extends the other (in particular the paths differ). -/
def incompDiff (d e : DiffP) : Prop :=
  ¬ pathExtends (DiffP.path d) (DiffP.path e) ∧
  ¬ pathExtends (DiffP.path e) (DiffP.path d)

theorem incomp_of_steps {p : List PathStep} {s1 s2 : PathStep} (hne : s1 ≠ s2)
    {d e : DiffP} (hd : pathExtends (DiffP.path d) (p ++ [s1]))
    (he : pathExtends (DiffP.path e) (p ++ [s2])) : incompDiff d e :=
  ⟨pathExtends_incomp hne hd he, pathExtends_incomp hne.symm he hd⟩

theorem pairwise_flatMap {α β : Type} {R : β → β → Prop} {L : List α}
    {f : α → List β} (h1 : ∀ a ∈ L, List.Pairwise R (f a))
    (h2 : List.Pairwise (fun a b => ∀ x ∈ f a, ∀ y ∈ f b, R x y) L) :
    List.Pairwise R (L.flatMap f) := by
  induction L with
  | nil => simp
  | cons a L ih =>
    simp only [List.flatMap_cons]
    rw [List.pairwise_append]
    rcases List.pairwise_cons.1 h2 with ⟨ha, hL⟩
    refine ⟨h1 a (by simp), ih (fun x hx => h1 x (by simp [hx])) hL, ?_⟩
    intro x hx y hy
    rcases List.mem_flatMap.1 hy with ⟨b, hb, hyb⟩
    exact ha b hb x hx y hyb

theorem compareArraysP_pair {N : Nat} {ls rs : List Json}
    (hsz : jsizeL ls + jsizeL rs < N)
    (IH : ∀ x y : Json, jsize x + jsize y < N → ∀ q,
      (∀ d ∈ compareP x y q, pathExtends (DiffP.path d) q) ∧
      List.Pairwise incompDiff (compareP x y q)) (pl : List PathStep) :
    (∀ d ∈ compareArraysP ls rs pl, pathExtends (DiffP.path d) pl) ∧
    List.Pairwise incompDiff (compareArraysP ls rs pl) := by
  have hIHsz : ∀ i, ¬ ls.length ≤ i → ¬ rs.length ≤ i →
      jsize (ls.getD i Json.undef) + jsize (rs.getD i Json.undef) < N := by
    intro i h1 h2
    have hx := jsize_getD_le (Nat.lt_of_not_le h1)
    have hy := jsize_getD_le (Nat.lt_of_not_le h2)
    omega
  have hblockext : ∀ (i : Nat) (d : DiffP),
      d ∈ (if _h1 : ls.length ≤ i then [DiffP.added (pl ++ [.idx i]) (rs.getD i .undef)]
        else if _h2 : rs.length ≤ i then [DiffP.removed (pl ++ [.idx i]) (ls.getD i .undef)]
        else compareP (ls.getD i .undef) (rs.getD i .undef) (pl ++ [.idx i])) →
      pathExtends (DiffP.path d) (pl ++ [.idx i]) := by
    intro i d hd
    by_cases h1 : ls.length ≤ i
    · simp only [dif_pos h1, List.mem_singleton] at hd
      subst hd
      exact pathExtends_refl _
    · by_cases h2 : rs.length ≤ i
      · simp only [dif_neg h1, dif_pos h2, List.mem_singleton] at hd
        subst hd
        exact pathExtends_refl _
      · simp only [dif_neg h1, dif_neg h2] at hd
        exact (IH _ _ (hIHsz i h1 h2) _).1 d hd
  rw [compareArraysP]
  constructor
  · intro d hd
    rcases List.mem_flatMap.1 hd with ⟨i, _, hdi⟩
    exact pathExtends_trans (hblockext i d hdi) (pathExtends_snoc pl _)
  · refine pairwise_flatMap ?_ ?_
    · intro i _
      by_cases h1 : ls.length ≤ i
      · simp [dif_pos h1]
      · by_cases h2 : rs.length ≤ i
        · simp [dif_neg h1, dif_pos h2]
        · simp only [dif_neg h1, dif_neg h2]
          exact (IH _ _ (hIHsz i h1 h2) _).2
    · refine (List.pairwise_lt_range _).imp ?_
      intro i j hij x hx y hy
      have hne : PathStep.idx i ≠ PathStep.idx j := by
        simp [Nat.ne_of_lt hij]
      exact incomp_of_steps hne (hblockext i x hx) (hblockext j y hy)

theorem compareObjectsP_pair {N : Nat} {les res : List (String × Json)}
    (hsz : jsizeKV les + jsizeKV res < N)
    (IH : ∀ x y : Json, jsize x + jsize y < N → ∀ q,
      (∀ d ∈ compareP x y q, pathExtends (DiffP.path d) q) ∧
      List.Pairwise incompDiff (compareP x y q)) (pl : List PathStep) :
    (∀ d ∈ compareObjectsP les res pl, pathExtends (DiffP.path d) pl) ∧
    List.Pairwise incompDiff (compareObjectsP les res pl) := by
  have hIHsz : ∀ k : String, k ∈ les.map Prod.fst → k ∈ res.map Prod.fst →
      jsize (getKey les k) + jsize (getKey res k) < N := by
    intro k h1 h2
    have hx := jsize_getKey_le h1
    have hy := jsize_getKey_le h2
    omega
  have hblockext : ∀ (k : String) (d : DiffP),
      d ∈ (if _h1 : k ∈ les.map Prod.fst then
          if _h2 : k ∈ res.map Prod.fst then
            compareP (getKey les k) (getKey res k) (pl ++ [.key k])
          else [DiffP.removed (pl ++ [.key k]) (getKey les k)]
        else [DiffP.added (pl ++ [.key k]) (getKey res k)]) →
      pathExtends (DiffP.path d) (pl ++ [.key k]) := by
    intro k d hd
    by_cases h1 : k ∈ les.map Prod.fst
    · by_cases h2 : k ∈ res.map Prod.fst
      · simp only [dif_pos h1, dif_pos h2] at hd
        exact (IH _ _ (hIHsz k h1 h2) _).1 d hd
      · simp only [dif_pos h1, dif_neg h2, List.mem_singleton] at hd
        subst hd
        exact pathExtends_refl _
    · simp only [dif_neg h1, List.mem_singleton] at hd
      subst hd
      exact pathExtends_refl _
  rw [compareObjectsP]
  constructor
  · intro d hd
    rcases List.mem_flatMap.1 hd with ⟨k, _, hdk⟩
    exact pathExtends_trans (hblockext k d hdk) (pathExtends_snoc pl _)
  · refine pairwise_flatMap ?_ ?_
    · intro k _
      by_cases h1 : k ∈ les.map Prod.fst
      · by_cases h2 : k ∈ res.map Prod.fst
        · simp only [dif_pos h1, dif_pos h2]
          exact (IH _ _ (hIHsz k h1 h2) _).2
        · simp [dif_pos h1, dif_neg h2]
      · simp [dif_neg h1]
    · refine (nodup_unionKeys _).imp ?_
      intro k k2 hkk x hx y hy
      have hne : PathStep.key k ≠ PathStep.key k2 := by simp [hkk]
      exact incomp_of_steps hne (hblockext k x hx) (hblockext k2 y hy)

theorem compareP_pair_let : ∀ N, ∀ l r : Json, jsize l + jsize r ≤ N → ∀ pl,
    (∀ d ∈ compareP l r pl, pathExtends (DiffP.path d) pl) ∧
    List.Pairwise incompDiff (compareP l r pl) := by
  intro N
  induction N using Nat.strong_induction_on with
  | _ N IH =>
    intro l r hle pl
    have IH2 : ∀ x y : Json, jsize x + jsize y < N → ∀ q,
        (∀ d ∈ compareP x y q, pathExtends (DiffP.path d) q) ∧
        List.Pairwise incompDiff (compareP x y q) := fun x y hxy q =>
      IH (jsize x + jsize y) hxy x y le_rfl q
    rw [compareP]
    split_ifs with h1 h2 h3 h4 h5 h6
    · constructor
      · intro d hd
        simp only [List.mem_singleton] at hd
        subst hd
        exact pathExtends_refl _
      · simp
    · simp
    · constructor
      · intro d hd
        simp only [List.mem_singleton] at hd
        subst hd
        exact pathExtends_refl _
      · simp
    · refine compareArraysP_pair ?_ IH2 pl
      have ha := jsizeL_arrElems_lt l
      have hb := jsizeL_arrElems_lt r
      omega
    · refine compareObjectsP_pair ?_ IH2 pl
      have ha := jsizeKV_objEntries_lt l
      have hb := jsizeKV_objEntries_lt r
      omega
    · constructor
      · intro d hd
        simp only [List.mem_singleton] at hd
        subst hd
        exact pathExtends_refl _
      · simp
    · simp

theorem compareP_pairwise (l r : Json) (pl : List PathStep) :
    List.Pairwise incompDiff (compareP l r pl) :=
  (compareP_pair_let (jsize l + jsize r) l r le_rfl pl).2

theorem tsn0 : toString (0 : Nat) = "0" := rfl

theorem tsn1 : toString (1 : Nat) = "1" := rfl

theorem tsn2 : toString (2 : Nat) = "2" := rfl

/-- C4: comparing any JSON value with itself yields the empty difference
sequence, at the top level and below any path. -/
theorem claim_c4_identity : ∀ (x : Json) (s : String), compare x x s = [] :=
  fun x s => compare_self x s

/-- C3: compare is symmetric in detection and antisymmetric in payload — the
two directions produce the same differences up to reordering, once added and
removed trade places and the left/right payloads swap (swapDiff). -/
theorem claim_c3_symmetry : ∀ (a b : Json) (s : String),
    List.Perm (compare b a s) ((compare a b s).map swapDiff) :=
  fun a b s => compare_symm a b s

/-- C6: when either side is null or the undefined marker, compare emits a
single value_change carrying both payloads at the current path (the empty
path renders as the token root) and recurses no further; identical nullish
sides emit nothing. -/
theorem claim_c6_nullish : ∀ (l r : Json) (s : String),
    isNullish l = true ∨ isNullish r = true →
    compare l r s = if l = r then [] else [.valueChange (orRoot s) l r] := by
  intro l r s h
  rw [compare]
  have hcond : (isNullish l || isNullish r) = true := by
    rcases h with h | h <;> simp [h]
  rw [if_pos hcond]
  by_cases he : l = r
  · simp [he]
  · simp [he]

/-- Witness for C6 at null versus the number 5 with the empty path. -/
theorem claim_c6_witness :
    (isNullish Json.null = true ∨ isNullish (Json.num 5) = true) ∧
    compare .null (.num 5) "" =
      if Json.null = Json.num 5 then []
      else [.valueChange (orRoot "") .null (.num 5)] :=
  ⟨Or.inl rfl, claim_c6_nullish Json.null (Json.num 5) "" (Or.inl rfl)⟩

/-- C7: the nested example pair differing only in the second element of the
array at member a.b produces exactly one value_change whose path is a.b[1],
with dot-joined member names and bracketed indices appended directly. -/
theorem claim_c7_path :
    compare (.obj [("a", .obj [("b", .arr [.num 1, .num 2])])])
      (.obj [("a", .obj [("b", .arr [.num 1, .num 3])])]) "" =
      [.valueChange "a.b[1]" (.num 2) (.num 3)] := by
  simp [compare_obj_obj, compare_num_num, compare_arr_arr,
    compareObjects.eq_def, compareArrays.eq_def,
    objEntries, getKey, unionKeys, addKey, List.range_succ, orRoot, tsn0, tsn1, tsn2]

/-- C8: array comparison is strictly positional over indices up to the longer
length: indices past the left length are additions carrying the right
element, indices past the right length are removals carrying the left
element, and shared indices recurse; in particular [1,2] against [1,2,3]
yields exactly one added at path [2] with payload 3. -/
theorem claim_c8_arrays_positional :
    (∀ (ls rs : List Json) (s : String),
      compare (.arr ls) (.arr rs) s =
        (List.range (max ls.length rs.length)).flatMap fun i =>
          if ls.length ≤ i then
            [.added (s ++ "[" ++ toString i ++ "]") (rs.getD i .undef)]
          else if rs.length ≤ i then
            [.removed (s ++ "[" ++ toString i ++ "]") (ls.getD i .undef)]
          else
            compare (ls.getD i .undef) (rs.getD i .undef)
              (s ++ "[" ++ toString i ++ "]")) ∧
    compare (.arr [.num 1, .num 2]) (.arr [.num 1, .num 2, .num 3]) "" =
      [.added "[2]" (.num 3)] := by
  constructor
  · intro ls rs s
    rw [compare_arr_arr, compareArrays]
    apply List.flatMap_congr
    intro i _
    by_cases h1 : ls.length ≤ i
    · simp [h1]
    · by_cases h2 : rs.length ≤ i <;> simp [h1, h2]
  · simp [compare_arr_arr, compare_num_num, compareArrays.eq_def,
      List.range_succ, tsn0, tsn1, tsn2]

/-- C1 counterexample: an array compared with a plain object has differing
JSON kinds, yet the code does not emit a type_change: both sides have
JavaScript typeof object, so the pair falls through to the object walk,
which recurses and emits added/removed records at child paths instead. -/
theorem claim_c1_counterexample :
    compare (.arr [.num 1]) (.obj [("a", .num 1)]) "" =
      [.removed "0" (.num 1), .added "a" (.num 1)] ∧
    ∀ d ∈ compare (.arr [.num 1]) (.obj [("a", .num 1)]) "",
      Diff.isTypeChange d = false := by
  have heval : compare (.arr [.num 1]) (.obj [("a", .num 1)]) "" =
      [.removed "0" (.num 1), .added "a" (.num 1)] := by
    simp [compare_arr_obj, compareObjects.eq_def, objEntries, getKey,
      unionKeys, addKey, List.enum, List.enumFrom, orRoot, tsn0, tsn1]
  refine ⟨heval, ?_⟩
  intro d hd
  rw [heval] at hd
  rcases List.mem_cons.1 hd with rfl | hd2
  · rfl
  · rcases List.mem_cons.1 hd2 with rfl | hd3
    · rfl
    · exact absurd hd3 (List.not_mem_nil d)

/-- C1 amended: for non-nullish inputs whose JavaScript typeof tags differ
(number vs string, boolean vs number, number vs array, and so on) compare
emits exactly one type_change at the current path carrying each side's
typeof tag and value and recurses no further; array-versus-object pairs are
excluded because both sides report typeof object and are instead walked as
objects.  The concrete example from the spec holds as stated. -/
theorem claim_c1_amended :
    (∀ (l r : Json) (s : String), isNullish l = false → isNullish r = false →
      jsTypeof l ≠ jsTypeof r →
      compare l r s = [.typeChange (orRoot s) (jsTypeof l) l (jsTypeof r) r]) ∧
    compare (.obj [("v", .num 30)]) (.obj [("v", .str "30")]) "" =
      [.typeChange "v" "number" (.num 30) "string" (.str "30")] := by
  constructor
  · intro l r s h1 h2 h
    exact compare_type_mismatch h1 h2 h s
  · have hinner : compare (.num 30) (.str "30") "v" =
        [.typeChange "v" "number" (.num 30) "string" (.str "30")] := by
      have := compare_type_mismatch (l := .num 30) (r := .str "30")
        rfl rfl (by simp [jsTypeof]) "v"
      simpa [jsTypeof, orRoot] using this
    simp [compare_obj_obj, compareObjects.eq_def, objEntries, getKey,
      unionKeys, addKey, hinner]

/-- Witness for the amended C1 at number 30 versus string 30 under path v. -/
theorem claim_c1_witness :
    isNullish (Json.num 30) = false ∧ isNullish (Json.str "30") = false ∧
    jsTypeof (Json.num 30) ≠ jsTypeof (Json.str "30") ∧
    compare (.num 30) (.str "30") "v" =
      [.typeChange (orRoot "v") (jsTypeof (.num 30)) (.num 30)
        (jsTypeof (.str "30")) (.str "30")] :=
  ⟨rfl, rfl, by simp [jsTypeof],
    claim_c1_amended.1 (.num 30) (.str "30") "v" rfl rfl (by simp [jsTypeof])⟩

/-- C5 counterexample: rendered path strings are not unique per emitted
difference.  An object whose keys are a (holding an object with member b)
and the literal key a.b makes two distinct structural positions render to
the same string a.b, so the emitted path list contains a duplicate. -/
theorem claim_c5_counterexample :
    (compare (.obj [("a", .obj [("b", .num 1)]), ("a.b", .num 2)])
        (.obj [("a", .obj [("b", .num 9)]), ("a.b", .num 8)]) "").map Diff.path =
      ["a.b", "a.b"] ∧
    ¬ ((compare (.obj [("a", .obj [("b", .num 1)]), ("a.b", .num 2)])
        (.obj [("a", .obj [("b", .num 9)]), ("a.b", .num 8)]) "").map Diff.path).Nodup := by
  have heval : compare (.obj [("a", .obj [("b", .num 1)]), ("a.b", .num 2)])
      (.obj [("a", .obj [("b", .num 9)]), ("a.b", .num 8)]) "" =
      [.valueChange "a.b" (.num 1) (.num 9), .valueChange "a.b" (.num 2) (.num 8)] := by
    simp [compare_obj_obj, compare_num_num, compareObjects.eq_def,
      objEntries, getKey, unionKeys, addKey, orRoot]
  rw [heval]
  refine ⟨rfl, ?_⟩
  simp [Diff.path]

/-- C5 amended: taken at structural positions (the sequence of member keys
and array indices leading to the divergence) instead of rendered strings,
the invariant holds: every comparison run emits each position at most once
and never emits one position strictly (or weakly) below another — the
emitted positions are pairwise incomparable in the prefix order.  The second
conjunct ties the structural run to the code's rendered-path run: compare
is exactly the structural comparison followed by path rendering. -/
theorem claim_c5_amended :
    (∀ (l r : Json) (pl : List PathStep),
      List.Pairwise incompDiff (compareP l r pl)) ∧
    (∀ (l r : Json) (s : String),
      compare l r s = (compareP l r [PathStep.key s]).map stringifyDiff) :=
  ⟨fun l r pl => compareP_pairwise l r pl,
    fun l r s => compare_eq_stringify_any l r s⟩

end JsonCompare

namespace JsonCompareCapped

open JsonCompare

/-- src/unnamed/part_002 line 14: the constructor default for the
maxDifferences cap. -/
def maxDifferencesDefault : Nat := 10000

/-- src/unnamed/part_002 lines 88-92 (JsonCompare.addDifference): push a
difference only while the accumulator is below the cap. -/
def addDifference (maxD : Nat) (acc : List Diff) (d : Diff) : List Diff :=
  if acc.length < maxD then acc ++ [d] else acc

/-- src/unnamed/part_002 lines 98-99: the sampling stride of the array walk;
sampleSize is 1000 for large arrays, so the stride is the floor of
maxLength / 1000, and 1 otherwise. -/
def jsStep (maxLength : Nat) : Nat :=
  if 1000 < maxLength then maxLength / 1000 else 1

/-- Index sequence of the sampled for-loop: i = start, start + step, ...
while i < maxLength.  The JavaScript loop can only run with a positive step
(jsStep is never zero); the impossible zero-step configuration returns [] to
keep the definition total. -/
def strideIndicesFrom (maxLen step i : Nat) : List Nat :=
  if h : i < maxLen ∧ 0 < step then i :: strideIndicesFrom maxLen step (i + step)
  else []
termination_by maxLen - i
decreasing_by omega

/-- The full index sequence of the sampled loop, from zero. -/
def strideIndices (maxLen step : Nat) : List Nat :=
  strideIndicesFrom maxLen step 0

/-- src/unnamed/part_002 lines 101-103: the console warning announcing that a
large array is being sampled rather than compared exhaustively. -/
def samplingNotice (maxLength step : Nat) : Option String :=
  if 1000 < maxLength then
    some ("Large array detected (" ++ toString maxLength ++
      " items). Sampling every " ++ toString step ++ " items for performance.")
  else none

/-- src/unnamed/part_002 line 213: the condition under which
formatDifferences appends the truncated-at marker to its headline, exposing
the truncation state to the caller of the report. -/
def truncationFlagged (diffs : List Diff) (maxDifferences : Nat) : Bool :=
  maxDifferences ≤ diffs.length

mutual
/-- The part_002 comparator with the cap logic stripped out: the full
difference sequence the sampled walk would produce without the
maxDifferences early exits.  Identical to JsonCompare.compare except that
arrays are walked over the sampled index sequence. -/
def compareS (l r : Json) (path : String) : List Diff :=
  if isNullish l || isNullish r then
    if l ≠ r then [.valueChange (orRoot path) l r] else []
  else if jsTypeof l ≠ jsTypeof r then
    [.typeChange (orRoot path) (jsTypeof l) l (jsTypeof r) r]
  else if isArr l && isArr r then
    compareArraysS (arrElems l) (arrElems r) path
  else if jsTypeof l = "object" && jsTypeof r = "object" then
    compareObjectsS (objEntries l) (objEntries r) path
  else if l ≠ r then [.valueChange (orRoot path) l r] else []
termination_by jsize l + jsize r
decreasing_by
  · have h1 := jsizeL_arrElems_lt l
    have h2 := jsizeL_arrElems_lt r
    omega
  · have h1 := jsizeKV_objEntries_lt l
    have h2 := jsizeKV_objEntries_lt r
    omega

/-- part_002 compareArrays (lines 94-129) without the cap checks: the loop
visits only the sampled indices. -/
def compareArraysS (ls rs : List Json) (path : String) : List Diff :=
  (strideIndices (max ls.length rs.length)
      (jsStep (max ls.length rs.length))).flatMap fun i =>
    let currentPath := path ++ "[" ++ toString i ++ "]"
    if h1 : ls.length ≤ i then
      [.added currentPath (rs.getD i .undef)]
    else if h2 : rs.length ≤ i then
      [.removed currentPath (ls.getD i .undef)]
    else
      compareS (ls.getD i .undef) (rs.getD i .undef) currentPath
termination_by jsizeL ls + jsizeL rs + 1
decreasing_by
  have hl : jsize (ls.getD i Json.undef) ≤ jsizeL ls :=
    jsize_getD_le (Nat.lt_of_not_le h1)
  have hr : jsize (rs.getD i Json.undef) ≤ jsizeL rs :=
    jsize_getD_le (Nat.lt_of_not_le h2)
  omega

/-- part_002 compareObjects (lines 131-162) without the cap checks. -/
def compareObjectsS (les res : List (String × Json)) (path : String) : List Diff :=
  (unionKeys (les.map Prod.fst ++ res.map Prod.fst)).flatMap fun k =>
    let currentPath := if path = "" then k else path ++ "." ++ k
    if h1 : k ∈ les.map Prod.fst then
      if h2 : k ∈ res.map Prod.fst then
        compareS (getKey les k) (getKey res k) currentPath
      else
        [.removed currentPath (getKey les k)]
    else
      [.added currentPath (getKey res k)]
termination_by jsizeKV les + jsizeKV res + 1
decreasing_by
  have hl : jsize (getKey les k) ≤ jsizeKV les := jsize_getKey_le h1
  have hr : jsize (getKey res k) ≤ jsizeKV res := jsize_getKey_le h2
  omega
end

mutual
/-- Translation of part_002 JsonCompare.compare (lines 24-82): the recursive
comparison threading the shared differences accumulator, with the early
exit once the accumulator has reached maxDifferences and every push going
through addDifference. -/
def compareC (maxD : Nat) (l r : Json) (path : String) (acc : List Diff) : List Diff :=
  if maxD ≤ acc.length then acc
  else if isNullish l || isNullish r then
    if l ≠ r then addDifference maxD acc (.valueChange (orRoot path) l r) else acc
  else if jsTypeof l ≠ jsTypeof r then
    addDifference maxD acc (.typeChange (orRoot path) (jsTypeof l) l (jsTypeof r) r)
  else if isArr l && isArr r then
    compareArraysC maxD (arrElems l) (arrElems r) path acc
  else if jsTypeof l = "object" && jsTypeof r = "object" then
    compareObjectsC maxD (objEntries l) (objEntries r) path acc
  else if l ≠ r then addDifference maxD acc (.valueChange (orRoot path) l r) else acc
termination_by (jsize l + jsize r, 0)
decreasing_by
  all_goals
    first
      | exact Prod.Lex.right _ (by simp)
      | exact Prod.Lex.right _ (by omega)
      | (have hx := jsize_getD_le (Nat.lt_of_not_le h1)
         have hy := jsize_getD_le (Nat.lt_of_not_le h2)
         exact Prod.Lex.left _ _ (by omega))
      | (have hx := jsize_getKey_le h1
         have hy := jsize_getKey_le h2
         exact Prod.Lex.left _ _ (by omega))
      | (have hx := jsizeL_arrElems_lt l
         have hy := jsizeL_arrElems_lt r
         exact Prod.Lex.left _ _ (by omega))
      | (have hx := jsizeKV_objEntries_lt l
         have hy := jsizeKV_objEntries_lt r
         exact Prod.Lex.left _ _ (by omega))

/-- Translation of part_002 compareArrays (lines 94-129): compute the
sampled index sequence and run the capped loop over it. -/
def compareArraysC (maxD : Nat) (ls rs : List Json) (path : String)
    (acc : List Diff) : List Diff :=
  arrLoopC maxD ls rs path
    (strideIndices (max ls.length rs.length) (jsStep (max ls.length rs.length))) acc
termination_by (jsizeL ls + jsizeL rs + 1,
  (strideIndices (max ls.length rs.length) (jsStep (max ls.length rs.length))).length + 1)
decreasing_by
  all_goals
    first
      | exact Prod.Lex.right _ (by simp)
      | exact Prod.Lex.right _ (by omega)
      | (have hx := jsize_getD_le (Nat.lt_of_not_le h1)
         have hy := jsize_getD_le (Nat.lt_of_not_le h2)
         exact Prod.Lex.left _ _ (by omega))
      | (have hx := jsize_getKey_le h1
         have hy := jsize_getKey_le h2
         exact Prod.Lex.left _ _ (by omega))
      | (have hx := jsizeL_arrElems_lt l
         have hy := jsizeL_arrElems_lt r
         exact Prod.Lex.left _ _ (by omega))
      | (have hx := jsizeKV_objEntries_lt l
         have hy := jsizeKV_objEntries_lt r
         exact Prod.Lex.left _ _ (by omega))

/-- The body of the sampled for-loop of part_002 compareArrays: each
iteration first checks the cap (the break on lines 107-109), then emits an
added/removed record or recurses, and continues with the grown
accumulator. -/
def arrLoopC (maxD : Nat) (ls rs : List Json) (path : String) (is : List Nat)
    (acc : List Diff) : List Diff :=
  match is with
  | [] => acc
  | i :: rest =>
    if maxD ≤ acc.length then acc
    else
      arrLoopC maxD ls rs path rest
        (if h1 : ls.length ≤ i then
          addDifference maxD acc (.added (path ++ "[" ++ toString i ++ "]") (rs.getD i .undef))
        else if h2 : rs.length ≤ i then
          addDifference maxD acc (.removed (path ++ "[" ++ toString i ++ "]") (ls.getD i .undef))
        else
          compareC maxD (ls.getD i .undef) (rs.getD i .undef)
            (path ++ "[" ++ toString i ++ "]") acc)
termination_by (jsizeL ls + jsizeL rs + 1, is.length)
decreasing_by
  all_goals
    first
      | exact Prod.Lex.right _ (by simp)
      | exact Prod.Lex.right _ (by omega)
      | (have hx := jsize_getD_le (Nat.lt_of_not_le h1)
         have hy := jsize_getD_le (Nat.lt_of_not_le h2)
         exact Prod.Lex.left _ _ (by omega))
      | (have hx := jsize_getKey_le h1
         have hy := jsize_getKey_le h2
         exact Prod.Lex.left _ _ (by omega))
      | (have hx := jsizeL_arrElems_lt l
         have hy := jsizeL_arrElems_lt r
         exact Prod.Lex.left _ _ (by omega))
      | (have hx := jsizeKV_objEntries_lt l
         have hy := jsizeKV_objEntries_lt r
         exact Prod.Lex.left _ _ (by omega))

/-- Translation of part_002 compareObjects (lines 131-162): walk the key
union with the capped loop. -/
def compareObjectsC (maxD : Nat) (les res : List (String × Json)) (path : String)
    (acc : List Diff) : List Diff :=
  objLoopC maxD les res path (unionKeys (les.map Prod.fst ++ res.map Prod.fst)) acc
termination_by (jsizeKV les + jsizeKV res + 1,
  (unionKeys (les.map Prod.fst ++ res.map Prod.fst)).length + 1)
decreasing_by
  all_goals
    first
      | exact Prod.Lex.right _ (by simp)
      | exact Prod.Lex.right _ (by omega)
      | (have hx := jsize_getD_le (Nat.lt_of_not_le h1)
         have hy := jsize_getD_le (Nat.lt_of_not_le h2)
         exact Prod.Lex.left _ _ (by omega))
      | (have hx := jsize_getKey_le h1
         have hy := jsize_getKey_le h2
         exact Prod.Lex.left _ _ (by omega))
      | (have hx := jsizeL_arrElems_lt l
         have hy := jsizeL_arrElems_lt r
         exact Prod.Lex.left _ _ (by omega))
      | (have hx := jsizeKV_objEntries_lt l
         have hy := jsizeKV_objEntries_lt r
         exact Prod.Lex.left _ _ (by omega))

/-- The body of the key-union loop of part_002 compareObjects, with the cap
break on lines 139-141. -/
def objLoopC (maxD : Nat) (les res : List (String × Json)) (path : String)
    (ks : List String) (acc : List Diff) : List Diff :=
  match ks with
  | [] => acc
  | k :: rest =>
    if maxD ≤ acc.length then acc
    else
      objLoopC maxD les res path rest
        (if h1 : k ∈ les.map Prod.fst then
          if h2 : k ∈ res.map Prod.fst then
            compareC maxD (getKey les k) (getKey res k)
              (if path = "" then k else path ++ "." ++ k) acc
          else
            addDifference maxD acc
              (.removed (if path = "" then k else path ++ "." ++ k) (getKey les k))
        else
          addDifference maxD acc
            (.added (if path = "" then k else path ++ "." ++ k) (getKey res k)))
termination_by (jsizeKV les + jsizeKV res + 1, ks.length)
decreasing_by
  all_goals
    first
      | exact Prod.Lex.right _ (by simp)
      | exact Prod.Lex.right _ (by omega)
      | (have hx := jsize_getD_le (Nat.lt_of_not_le h1)
         have hy := jsize_getD_le (Nat.lt_of_not_le h2)
         exact Prod.Lex.left _ _ (by omega))
      | (have hx := jsize_getKey_le h1
         have hy := jsize_getKey_le h2
         exact Prod.Lex.left _ _ (by omega))
      | (have hx := jsizeL_arrElems_lt l
         have hy := jsizeL_arrElems_lt r
         exact Prod.Lex.left _ _ (by omega))
      | (have hx := jsizeKV_objEntries_lt l
         have hy := jsizeKV_objEntries_lt r
         exact Prod.Lex.left _ _ (by omega))
end

theorem take_append_take {α : Type} (L Y : List α) (n : Nat) :
    ((L.take n) ++ Y).take n = (L ++ Y).take n := by
  by_cases h : L.length ≤ n
  · rw [List.take_of_length_le h]
  · have h2 : n ≤ L.length := le_of_not_le h
    have h3 : n ≤ (L.take n).length := by simp [h2]
    rw [List.take_append_of_le_length h3, List.take_append_of_le_length h2, List.take_take]
    simp

theorem addDifference_length_le {maxD : Nat} {acc : List Diff} {d : Diff}
    (h : acc.length ≤ maxD) : (addDifference maxD acc d).length ≤ maxD := by
  rw [addDifference]
  split_ifs with h2
  · simp
    omega
  · exact h

theorem addDifference_eq {maxD : Nat} {acc : List Diff} {d : Diff}
    (h : acc.length < maxD) : addDifference maxD acc d = acc ++ [d] := by
  rw [addDifference, if_pos h]

theorem arrLoopC_sim {maxD N : Nat} {ls rs : List Json}
    (IH : ∀ x y : Json, jsize x + jsize y < N → ∀ p acc, acc.length ≤ maxD →
      compareC maxD x y p acc = (acc ++ compareS x y p).take maxD)
    (hsz : jsizeL ls + jsizeL rs < N) :
    ∀ (is : List Nat) (path : String) (acc : List Diff), acc.length ≤ maxD →
      arrLoopC maxD ls rs path is acc =
        (acc ++ is.flatMap fun i =>
          if ls.length ≤ i then
            [Diff.added (path ++ "[" ++ toString i ++ "]") (rs.getD i .undef)]
          else if rs.length ≤ i then
            [Diff.removed (path ++ "[" ++ toString i ++ "]") (ls.getD i .undef)]
          else compareS (ls.getD i .undef) (rs.getD i .undef)
            (path ++ "[" ++ toString i ++ "]")).take maxD := by
  intro is
  induction is with
  | nil =>
    intro path acc hacc
    rw [arrLoopC]
    simp [List.take_of_length_le hacc]
  | cons i rest ih =>
    intro path acc hacc
    rw [arrLoopC]
    by_cases hfull : maxD ≤ acc.length
    · rw [if_pos hfull, List.take_append_of_le_length hfull, List.take_of_length_le hacc]
    · have hlt : acc.length < maxD := Nat.lt_of_not_le hfull
      rw [if_neg hfull, List.flatMap_cons, ← List.append_assoc]
      by_cases h1 : ls.length ≤ i
      · rw [dif_pos h1, ih path _ (addDifference_length_le hacc),
          addDifference_eq hlt, if_pos h1]
      · by_cases h2 : rs.length ≤ i
        · rw [dif_neg h1, dif_pos h2, ih path _ (addDifference_length_le hacc),
            addDifference_eq hlt, if_neg h1, if_pos h2]
        · have hx : jsize (ls.getD i Json.undef) ≤ jsizeL ls :=
            jsize_getD_le (Nat.lt_of_not_le h1)
          have hy : jsize (rs.getD i Json.undef) ≤ jsizeL rs :=
            jsize_getD_le (Nat.lt_of_not_le h2)
          have hcmp := IH (ls.getD i .undef) (rs.getD i .undef) (by omega)
            (path ++ "[" ++ toString i ++ "]") acc hacc
          have hlen : (compareC maxD (ls.getD i .undef) (rs.getD i .undef)
              (path ++ "[" ++ toString i ++ "]") acc).length ≤ maxD := by
            rw [hcmp]
            exact List.length_take_le _ _
          rw [dif_neg h1, dif_neg h2, ih path _ hlen, hcmp, if_neg h1, if_neg h2,
            take_append_take]

theorem objLoopC_sim {maxD N : Nat} {les res : List (String × Json)}
    (IH : ∀ x y : Json, jsize x + jsize y < N → ∀ p acc, acc.length ≤ maxD →
      compareC maxD x y p acc = (acc ++ compareS x y p).take maxD)
    (hsz : jsizeKV les + jsizeKV res < N) :
    ∀ (ks : List String) (path : String) (acc : List Diff), acc.length ≤ maxD →
      objLoopC maxD les res path ks acc =
        (acc ++ ks.flatMap fun k =>
          if k ∈ les.map Prod.fst then
            if k ∈ res.map Prod.fst then
              compareS (getKey les k) (getKey res k)
                (if path = "" then k else path ++ "." ++ k)
            else
              [Diff.removed (if path = "" then k else path ++ "." ++ k) (getKey les k)]
          else
            [Diff.added (if path = "" then k else path ++ "." ++ k) (getKey res k)]).take maxD := by
  intro ks
  induction ks with
  | nil =>
    intro path acc hacc
    rw [objLoopC]
    simp [List.take_of_length_le hacc]
  | cons k rest ih =>
    intro path acc hacc
    rw [objLoopC]
    by_cases hfull : maxD ≤ acc.length
    · rw [if_pos hfull, List.take_append_of_le_length hfull, List.take_of_length_le hacc]
    · have hlt : acc.length < maxD := Nat.lt_of_not_le hfull
      rw [if_neg hfull, List.flatMap_cons, ← List.append_assoc]
      by_cases h1 : k ∈ les.map Prod.fst
      · by_cases h2 : k ∈ res.map Prod.fst
        · have hx : jsize (getKey les k) ≤ jsizeKV les := jsize_getKey_le h1
          have hy : jsize (getKey res k) ≤ jsizeKV res := jsize_getKey_le h2
          have hcmp := IH (getKey les k) (getKey res k) (by omega)
            (if path = "" then k else path ++ "." ++ k) acc hacc
          have hlen : (compareC maxD (getKey les k) (getKey res k)
              (if path = "" then k else path ++ "." ++ k) acc).length ≤ maxD := by
            rw [hcmp]
            exact List.length_take_le _ _
          rw [dif_pos h1, dif_pos h2, ih path _ hlen, hcmp, if_pos h1, if_pos h2,
            take_append_take]
        · rw [dif_pos h1, dif_neg h2, ih path _ (addDifference_length_le hacc),
            addDifference_eq hlt, if_pos h1, if_neg h2]
      · rw [dif_neg h1, ih path _ (addDifference_length_le hacc),
          addDifference_eq hlt, if_neg h1]

theorem compareArraysS_eq (ls rs : List Json) (path : String) :
    compareArraysS ls rs path =
      (strideIndices (max ls.length rs.length)
          (jsStep (max ls.length rs.length))).flatMap fun i =>
        if ls.length ≤ i then
          [Diff.added (path ++ "[" ++ toString i ++ "]") (rs.getD i .undef)]
        else if rs.length ≤ i then
          [Diff.removed (path ++ "[" ++ toString i ++ "]") (ls.getD i .undef)]
        else compareS (ls.getD i .undef) (rs.getD i .undef)
          (path ++ "[" ++ toString i ++ "]") := by
  rw [compareArraysS]
  apply List.flatMap_congr
  intro i _
  by_cases h1 : ls.length ≤ i
  · simp [h1]
  · by_cases h2 : rs.length ≤ i <;> simp [h1, h2]

theorem compareObjectsS_eq (les res : List (String × Json)) (path : String) :
    compareObjectsS les res path =
      (unionKeys (les.map Prod.fst ++ res.map Prod.fst)).flatMap fun k =>
        if k ∈ les.map Prod.fst then
          if k ∈ res.map Prod.fst then
            compareS (getKey les k) (getKey res k)
              (if path = "" then k else path ++ "." ++ k)
          else
            [Diff.removed (if path = "" then k else path ++ "." ++ k) (getKey les k)]
        else
          [Diff.added (if path = "" then k else path ++ "." ++ k) (getKey res k)] := by
  rw [compareObjectsS]
  apply List.flatMap_congr
  intro k _
  by_cases h1 : k ∈ les.map Prod.fst
  · by_cases h2 : k ∈ res.map Prod.fst <;> simp [h1, h2]
  · simp [h1]

theorem compareC_sim_sized : ∀ N, ∀ l r : Json, jsize l + jsize r ≤ N →
    ∀ (maxD : Nat) (path : String) (acc : List Diff), acc.length ≤ maxD →
      compareC maxD l r path acc = (acc ++ compareS l r path).take maxD := by
  intro N
  induction N using Nat.strong_induction_on with
  | _ N IH =>
    intro l r hle maxD path acc hacc
    have IH2 : ∀ x y : Json, jsize x + jsize y < N → ∀ p acc2, acc2.length ≤ maxD →
        compareC maxD x y p acc2 = (acc2 ++ compareS x y p).take maxD := by
      intro x y hxy p acc2 hacc2
      exact IH (jsize x + jsize y) hxy x y le_rfl maxD p acc2 hacc2
    rw [compareC, compareS]
    by_cases hfull : maxD ≤ acc.length
    · rw [if_pos hfull, List.take_append_of_le_length hfull, List.take_of_length_le hacc]
    · have hlt : acc.length < maxD := Nat.lt_of_not_le hfull
      rw [if_neg hfull]
      split_ifs with h1 h2 h3 h4 h5 h6
      · rw [addDifference_eq hlt]
        exact (List.take_of_length_le (by simp; omega)).symm
      · simp [List.take_of_length_le hacc]
      · rw [addDifference_eq hlt]
        exact (List.take_of_length_le (by simp; omega)).symm
      · rw [compareArraysC, compareArraysS_eq]
        refine arrLoopC_sim IH2 ?_ _ path acc hacc
        have ha := jsizeL_arrElems_lt l
        have hb := jsizeL_arrElems_lt r
        omega
      · rw [compareObjectsC, compareObjectsS_eq]
        refine objLoopC_sim IH2 ?_ _ path acc hacc
        have ha := jsizeKV_objEntries_lt l
        have hb := jsizeKV_objEntries_lt r
        omega
      · rw [addDifference_eq hlt]
        exact (List.take_of_length_le (by simp; omega)).symm
      · simp [List.take_of_length_le hacc]

theorem compareC_sim (maxD : Nat) (l r : Json) (path : String) (acc : List Diff)
    (hacc : acc.length ≤ maxD) :
    compareC maxD l r path acc = (acc ++ compareS l r path).take maxD :=
  compareC_sim_sized (jsize l + jsize r) l r le_rfl maxD path acc hacc

theorem sS_obj_obj (ls rs : List (String × Json)) (p : String) :
    compareS (.obj ls) (.obj rs) p = compareObjectsS ls rs p := by
  rw [compareS]
  simp [isNullish, jsTypeof, isArr, objEntries]

theorem sS_num_num (a b : Int) (p : String) :
    compareS (.num a) (.num b) p =
      if a = b then [] else [.valueChange (orRoot p) (.num a) (.num b)] := by
  rw [compareS]
  by_cases h : a = b <;> simp [isNullish, jsTypeof, isArr, h]

theorem mem_strideIndicesFrom (maxLen step : Nat) :
    ∀ fuel i j, maxLen - i ≤ fuel → j ∈ strideIndicesFrom maxLen step i →
      j < maxLen ∧ ∃ m, j = i + m * step := by
  intro fuel
  induction fuel with
  | zero =>
    intro i j hf hj
    rw [strideIndicesFrom] at hj
    have hc : ¬ (i < maxLen ∧ 0 < step) := by omega
    rw [dif_neg hc] at hj
    cases hj
  | succ fuel ih =>
    intro i j hf hj
    rw [strideIndicesFrom] at hj
    by_cases hc : i < maxLen ∧ 0 < step
    · rw [dif_pos hc] at hj
      rcases List.mem_cons.1 hj with rfl | hj2
      · exact ⟨hc.1, 0, by simp⟩
      · obtain ⟨h1, m, rfl⟩ := ih (i + step) j (by omega) hj2
        exact ⟨h1, m + 1, by ring⟩
    · rw [dif_neg hc] at hj
      cases hj

theorem mem_strideIndices {maxLen step j : Nat} (h : j ∈ strideIndices maxLen step) :
    j < maxLen ∧ j % step = 0 := by
  obtain ⟨h1, m, hm⟩ :=
    mem_strideIndicesFrom maxLen step maxLen 0 j (by omega) h
  subst hm
  refine ⟨by simpa using h1, ?_⟩
  simp [Nat.mul_mod_left]

theorem len_empty : ("" : String).length = 0 := rfl

theorem len_lbracket : ("[" : String).length = 1 := rfl

theorem len_rbracket : ("]" : String).length = 1 := rfl

theorem len_dot : ("." : String).length = 1 := rfl

theorem bracket_path_ne (p : String) (i : Nat) :
    p ++ "[" ++ toString i ++ "]" ≠ "" := by
  intro h
  have hlen := congrArg String.length h
  simp only [String.length_append, len_empty, len_lbracket, len_rbracket] at hlen
  omega

theorem dot_path_ne (p k : String) : p ++ "." ++ k ≠ "" := by
  intro h
  have hlen := congrArg String.length h
  simp only [String.length_append, len_empty, len_dot] at hlen
  omega

theorem compareArraysS_path {N : Nat} {ls rs : List Json}
    (IH : ∀ x y : Json, jsize x + jsize y < N → ∀ q, q ≠ "" →
      ∀ d ∈ compareS x y q, ∃ t, Diff.path d = q ++ t)
    (hsz : jsizeL ls + jsizeL rs < N) (p : String) :
    ∀ d ∈ compareArraysS ls rs p,
      ∃ i ∈ strideIndices (max ls.length rs.length) (jsStep (max ls.length rs.length)),
        ∃ t, Diff.path d = p ++ "[" ++ toString i ++ "]" ++ t := by
  intro d hd
  rw [compareArraysS] at hd
  rcases List.mem_flatMap.1 hd with ⟨i, hi, hdi⟩
  refine ⟨i, hi, ?_⟩
  by_cases h1 : ls.length ≤ i
  · simp only [dif_pos h1, List.mem_singleton] at hdi
    subst hdi
    exact ⟨"", by simp [Diff.path]⟩
  · by_cases h2 : rs.length ≤ i
    · simp only [dif_neg h1, dif_pos h2, List.mem_singleton] at hdi
      subst hdi
      exact ⟨"", by simp [Diff.path]⟩
    · simp only [dif_neg h1, dif_neg h2] at hdi
      have hx : jsize (ls.getD i Json.undef) ≤ jsizeL ls :=
        jsize_getD_le (Nat.lt_of_not_le h1)
      have hy : jsize (rs.getD i Json.undef) ≤ jsizeL rs :=
        jsize_getD_le (Nat.lt_of_not_le h2)
      exact IH _ _ (by omega) _ (bracket_path_ne p i) d hdi

theorem compareObjectsS_path {N : Nat} {les res : List (String × Json)}
    (IH : ∀ x y : Json, jsize x + jsize y < N → ∀ q, q ≠ "" →
      ∀ d ∈ compareS x y q, ∃ t, Diff.path d = q ++ t)
    (hsz : jsizeKV les + jsizeKV res < N) (p : String) (hp : p ≠ "") :
    ∀ d ∈ compareObjectsS les res p, ∃ t, Diff.path d = p ++ t := by
  intro d hd
  rw [compareObjectsS] at hd
  rcases List.mem_flatMap.1 hd with ⟨k, hk, hdk⟩
  simp only [if_neg hp] at hdk
  by_cases h1 : k ∈ les.map Prod.fst
  · by_cases h2 : k ∈ res.map Prod.fst
    · simp only [dif_pos h1, dif_pos h2] at hdk
      have hx : jsize (getKey les k) ≤ jsizeKV les := jsize_getKey_le h1
      have hy : jsize (getKey res k) ≤ jsizeKV res := jsize_getKey_le h2
      obtain ⟨t, ht⟩ := IH _ _ (by omega) _ (dot_path_ne p k) d hdk
      exact ⟨"." ++ k ++ t, by simp [ht, String.append_assoc]⟩
    · simp only [dif_pos h1, dif_neg h2, List.mem_singleton] at hdk
      subst hdk
      exact ⟨"." ++ k, by simp [Diff.path, String.append_assoc]⟩
  · simp only [dif_neg h1, List.mem_singleton] at hdk
    subst hdk
    exact ⟨"." ++ k, by simp [Diff.path, String.append_assoc]⟩

theorem compareS_path_sized : ∀ N, ∀ l r : Json, jsize l + jsize r ≤ N →
    ∀ p, p ≠ "" → ∀ d ∈ compareS l r p, ∃ t, Diff.path d = p ++ t := by
  intro N
  induction N using Nat.strong_induction_on with
  | _ N IH =>
    intro l r hle p hp d hd
    have IH2 : ∀ x y : Json, jsize x + jsize y < N → ∀ q, q ≠ "" →
        ∀ e ∈ compareS x y q, ∃ t, Diff.path e = q ++ t := by
      intro x y hxy q hq e he
      exact IH (jsize x + jsize y) hxy x y le_rfl q hq e he
    rw [compareS] at hd
    split_ifs at hd with h1 h2 h3 h4 h5 h6
    · simp only [List.mem_singleton] at hd
      subst hd
      exact ⟨"", by simp [Diff.path, orRoot, hp]⟩
    · cases hd
    · simp only [List.mem_singleton] at hd
      subst hd
      exact ⟨"", by simp [Diff.path, orRoot, hp]⟩
    · obtain ⟨i, _, t, ht⟩ := compareArraysS_path IH2
        (by have ha := jsizeL_arrElems_lt l; have hb := jsizeL_arrElems_lt r; omega)
        p d hd
      exact ⟨"[" ++ toString i ++ "]" ++ t, by simp [ht, String.append_assoc]⟩
    · exact compareObjectsS_path IH2
        (by have ha := jsizeKV_objEntries_lt l; have hb := jsizeKV_objEntries_lt r; omega)
        p hp d hd
    · simp only [List.mem_singleton] at hd
      subst hd
      exact ⟨"", by simp [Diff.path, orRoot, hp]⟩
    · cases hd

/-- C2: when the sampled comparison would find more differences than the
configured cap (default 10,000), the capped run stops adding once the cap is
reached: it returns exactly cap differences (the cap-length prefix of the
uncapped sequence) and the truncation condition that formatDifferences
reports alongside the results is set. -/
theorem claim_c2_cap :
    maxDifferencesDefault = 10000 ∧
    ∀ (maxD : Nat) (l r : Json),
      maxD < (compareS l r "").length →
      (compareC maxD l r "" []).length = maxD ∧
      truncationFlagged (compareC maxD l r "" []) maxD = true := by
  refine ⟨rfl, ?_⟩
  intro maxD l r h
  have hsim := compareC_sim maxD l r "" [] (by simp)
  simp only [List.nil_append] at hsim
  rw [hsim]
  constructor
  · simp only [List.length_take]
    omega
  · simp only [truncationFlagged, List.length_take, decide_eq_true_eq]
    omega

/-- Witness for C2: two flat objects differing in both members against a cap
of one yield exactly one recorded difference plus the truncation flag. -/
theorem claim_c2_witness :
    1 < (compareS (.obj [("a", .num 1), ("b", .num 2)])
        (.obj [("a", .num 9), ("b", .num 8)]) "").length ∧
    (compareC 1 (.obj [("a", .num 1), ("b", .num 2)])
        (.obj [("a", .num 9), ("b", .num 8)]) "" []).length = 1 ∧
    truncationFlagged (compareC 1 (.obj [("a", .num 1), ("b", .num 2)])
        (.obj [("a", .num 9), ("b", .num 8)]) "" []) 1 = true := by
  have heval : compareS (.obj [("a", .num 1), ("b", .num 2)])
      (.obj [("a", .num 9), ("b", .num 8)]) "" =
      [.valueChange "a" (.num 1) (.num 9), .valueChange "b" (.num 2) (.num 8)] := by
    simp [sS_obj_obj, sS_num_num, compareObjectsS.eq_def, objEntries, getKey,
      unionKeys, addKey, orRoot]
  have hlen : 1 < (compareS (.obj [("a", .num 1), ("b", .num 2)])
      (.obj [("a", .num 9), ("b", .num 8)]) "").length := by
    rw [heval]
    simp
  exact ⟨hlen, (claim_c2_cap.2 1 _ _ hlen).1, (claim_c2_cap.2 1 _ _ hlen).2⟩

/-- C10: for an array pair whose larger length exceeds 1000, the capped walk
samples at the stride floor(maxLength / 1000): everything it appends to the
accumulator lies at or below a sampled index (a multiple of the stride), so
a difference located at an off-stride index is never produced; and the
console notice flagging the non-exhaustive comparison is emitted. -/
theorem claim_c10_sampling :
    ∀ (maxD : Nat) (ls rs : List Json) (s : String) (acc : List Diff),
      1000 < max ls.length rs.length → acc.length ≤ maxD →
      (∃ ext, compareArraysC maxD ls rs s acc = acc ++ ext ∧
        ∀ d ∈ ext, ∃ i, i % jsStep (max ls.length rs.length) = 0 ∧
          i < max ls.length rs.length ∧
          ∃ t, Diff.path d = s ++ "[" ++ toString i ++ "]" ++ t) ∧
      (samplingNotice (max ls.length rs.length)
        (jsStep (max ls.length rs.length))).isSome = true := by
  intro maxD ls rs s acc hbig hacc
  constructor
  · have hIH : ∀ x y : Json, jsize x + jsize y < jsizeL ls + jsizeL rs + 1 →
        ∀ p acc2, acc2.length ≤ maxD →
        compareC maxD x y p acc2 = (acc2 ++ compareS x y p).take maxD := by
      intro x y _ p acc2 hacc2
      exact compareC_sim maxD x y p acc2 hacc2
    have hsim : compareArraysC maxD ls rs s acc =
        (acc ++ compareArraysS ls rs s).take maxD := by
      rw [compareArraysC, compareArraysS_eq]
      exact arrLoopC_sim hIH (by omega) _ s acc hacc
    refine ⟨(compareArraysS ls rs s).take (maxD - acc.length), ?_, ?_⟩
    · rw [hsim, List.take_append_eq_append_take, List.take_of_length_le hacc]
    · intro d hd
      have hds : d ∈ compareArraysS ls rs s := List.mem_of_mem_take hd
      have hIH2 : ∀ x y : Json, jsize x + jsize y < jsizeL ls + jsizeL rs + 1 →
          ∀ q, q ≠ "" → ∀ e ∈ compareS x y q, ∃ t, Diff.path e = q ++ t := by
        intro x y hxy q hq e he
        exact compareS_path_sized (jsize x + jsize y) x y le_rfl q hq e he
      obtain ⟨i, hi, t, ht⟩ := compareArraysS_path hIH2 (by omega) s d hds
      obtain ⟨hilt, himod⟩ := mem_strideIndices hi
      exact ⟨i, himod, hilt, t, ht⟩
  · simp [samplingNotice, hbig]

/-- Witness for C10 at a 1001-element array against the empty array, with
the default cap and an empty accumulator. -/
theorem claim_c10_witness :
    1000 < max (List.replicate 1001 (Json.num 0)).length ([] : List Json).length ∧
    ([] : List Diff).length ≤ maxDifferencesDefault ∧
    ((∃ ext, compareArraysC maxDifferencesDefault (List.replicate 1001 (Json.num 0)) [] "x" [] =
        [] ++ ext ∧
      ∀ d ∈ ext, ∃ i, i % jsStep (max (List.replicate 1001 (Json.num 0)).length
          ([] : List Json).length) = 0 ∧
        i < max (List.replicate 1001 (Json.num 0)).length ([] : List Json).length ∧
        ∃ t, Diff.path d = "x" ++ "[" ++ toString i ++ "]" ++ t) ∧
      (samplingNotice (max (List.replicate 1001 (Json.num 0)).length
          ([] : List Json).length)
        (jsStep (max (List.replicate 1001 (Json.num 0)).length
          ([] : List Json).length))).isSome = true) :=
  ⟨by rw [List.length_replicate, List.length_nil]; decide,
    by rw [List.length_nil]; exact Nat.zero_le _,
    claim_c10_sampling maxDifferencesDefault (List.replicate 1001 (Json.num 0)) [] "x" []
      (by rw [List.length_replicate, List.length_nil]; decide)
      (by rw [List.length_nil]; exact Nat.zero_le _)⟩

end JsonCompareCapped

namespace LineDiff

/-- One aligned row as pushed by createLineDiff in src/unnamed/part_000
(lines 361-447).  Line numbers are 1-based and null (none) on the side a
row does not touch; the content options hold the JavaScript value, which is
the undefined marker (none) when the code reads past the end of a line
array, and the empty string where the code pushes a literal empty
content. -/
structure Row where
  leftLineNum : Option Nat
  leftContent : Option String
  rightLineNum : Option Nat
  rightContent : Option String
  rowKind : String
deriving DecidableEq

/-- Entry (i, j) of the LCS dynamic-programming table built by computeLCS
(part_000 lines 449-467): line equality is taken on trimmed lines. -/
def dp (ll rl : List String) : Nat → Nat → Nat
  | 0, _ => 0
  | _ + 1, 0 => 0
  | i + 1, j + 1 =>
    if (ll.getD i "").trim = (rl.getD j "").trim then dp ll rl i j + 1
    else max (dp ll rl i (j + 1)) (dp ll rl (i + 1) j)
termination_by i j => (i, j)

/-- LCS reconstruction by backtracking from (i, j) (part_000 lines 469-485).
Matches compare trimmed lines but store the raw left line; ties in the
table prefer consuming the right side. -/
def btrack (ll rl : List String) : Nat → Nat → List String
  | i + 1, j + 1 =>
    if (ll.getD i "").trim = (rl.getD j "").trim then
      btrack ll rl i j ++ [ll.getD i ""]
    else if dp ll rl i (j + 1) > dp ll rl (i + 1) j then
      btrack ll rl i (j + 1)
    else
      btrack ll rl (i + 1) j
  | _, _ => []
termination_by i j => (i, j)

/-- The row-building loop of createLineDiff (part_000 lines 366-447), with
explicit fuel: the JavaScript while-loop does not terminate on every input
(see go_stuck_right and go_stuck_left below), so the model answers none
when the fuel runs out mid-loop.  Branch order and index bookkeeping follow
the source: common row (both sides match the current LCS element, raw
comparison), right-side insertion, left-side deletion, then the catch-all
changed/removed/added cases.  The final added branch omits the source's
rightIdx bound because the loop condition already guarantees it there. -/
def go (ll rl lcs : List String) : Nat → Nat → Nat → Nat → Option (List Row)
  | 0, li, ri, _ => if li < ll.length ∨ ri < rl.length then none else some []
  | fuel + 1, li, ri, ci =>
    if li < ll.length ∨ ri < rl.length then
      if ci < lcs.length ∧ li < ll.length ∧ ri < rl.length ∧
          ll.getD li "" = lcs.getD ci "" ∧ rl.getD ri "" = lcs.getD ci "" then
        (go ll rl lcs fuel (li + 1) (ri + 1) (ci + 1)).map
          (fun rows => Row.mk (some (li + 1)) (ll.get? li) (some (ri + 1))
            (rl.get? ri) "unchanged" :: rows)
      else if ci < lcs.length ∧ li < ll.length ∧ ll.getD li "" = lcs.getD ci "" then
        (go ll rl lcs fuel li (ri + 1) ci).map
          (fun rows => Row.mk none (some "") (some (ri + 1))
            (rl.get? ri) "added" :: rows)
      else if ci < lcs.length ∧ ri < rl.length ∧ rl.getD ri "" = lcs.getD ci "" then
        (go ll rl lcs fuel (li + 1) ri ci).map
          (fun rows => Row.mk (some (li + 1)) (ll.get? li) none
            (some "") "removed" :: rows)
      else if li < ll.length ∧ ri < rl.length then
        (go ll rl lcs fuel (li + 1) (ri + 1) ci).map
          (fun rows => Row.mk (some (li + 1)) (ll.get? li) (some (ri + 1))
            (rl.get? ri) "changed" :: rows)
      else if li < ll.length then
        (go ll rl lcs fuel (li + 1) ri ci).map
          (fun rows => Row.mk (some (li + 1)) (ll.get? li) none
            (some "") "removed" :: rows)
      else
        (go ll rl lcs fuel li (ri + 1) ci).map
          (fun rows => Row.mk none (some "") (some (ri + 1))
            (rl.get? ri) "added" :: rows)
    else some []

/-- createLineDiff (part_000 lines 361-447): compute the trimmed-LCS of the
two line arrays and replay it against the raw lines. -/
def createLineDiff (fuel : Nat) (ll rl : List String) : Option (List Row) :=
  go ll rl (btrack ll rl ll.length rl.length) fuel 0 0 0

/-- The left line of every row that has one (those whose left line number is
present), in order. -/
def leftRestore (rows : List Row) : List (Option String) :=
  rows.filterMap fun row =>
    if row.leftLineNum.isSome then some row.leftContent else none

/-- The right line of every row that has one, in order. -/
def rightRestore (rows : List Row) : List (Option String) :=
  rows.filterMap fun row =>
    if row.rightLineNum.isSome then some row.rightContent else none

/-- Once the right side is exhausted while the insertion branch still
matches, that branch keeps consuming phantom right lines forever: the run
never terminates, whatever fuel remains. -/
theorem go_stuck_right (ll rl lcs : List String) :
    ∀ fuel li ri ci, rl.length ≤ ri →
      ci < lcs.length → li < ll.length → ll.getD li "" = lcs.getD ci "" →
      go ll rl lcs fuel li ri ci = none := by
  intro fuel
  induction fuel with
  | zero =>
    intro li ri ci hr hc hl hm
    rw [go]
    rw [if_pos (Or.inl hl)]
  | succ fuel ih =>
    intro li ri ci hr hc hl hm
    rw [go]
    rw [if_pos (Or.inl hl)]
    have hb1 : ¬ (ci < lcs.length ∧ li < ll.length ∧ ri < rl.length ∧
        ll.getD li "" = lcs.getD ci "" ∧ rl.getD ri "" = lcs.getD ci "") := by
      rintro ⟨_, _, hcon, _, _⟩
      omega
    rw [if_neg hb1, if_pos ⟨hc, hl, hm⟩]
    rw [ih li (ri + 1) ci (by omega) hc hl hm]
    rfl

/-- Once the left side is exhausted while the deletion branch still matches,
that branch keeps consuming phantom left lines forever: the run never
terminates, whatever fuel remains. -/
theorem go_stuck_left (ll rl lcs : List String) :
    ∀ fuel li ri ci, ll.length ≤ li →
      ci < lcs.length → ri < rl.length → rl.getD ri "" = lcs.getD ci "" →
      go ll rl lcs fuel li ri ci = none := by
  intro fuel
  induction fuel with
  | zero =>
    intro li ri ci hl hc hr hm
    rw [go]
    rw [if_pos (Or.inr hr)]
  | succ fuel ih =>
    intro li ri ci hl hc hr hm
    rw [go]
    rw [if_pos (Or.inr hr)]
    have hb1 : ¬ (ci < lcs.length ∧ li < ll.length ∧ ri < rl.length ∧
        ll.getD li "" = lcs.getD ci "" ∧ rl.getD ri "" = lcs.getD ci "") := by
      rintro ⟨_, hcon, _, _, _⟩
      omega
    have hb2 : ¬ (ci < lcs.length ∧ li < ll.length ∧
        ll.getD li "" = lcs.getD ci "") := by
      rintro ⟨_, hcon, _⟩
      omega
    rw [if_neg hb1, if_neg hb2, if_pos ⟨hc, hr, hm⟩]
    rw [ih (li + 1) ri ci (by omega) hc hr hm]
    rfl

theorem leftRestore_cons_some (n : Nat) (c : Option String) (b : Option Nat)
    (d : Option String) (k : String) (rows : List Row) :
    leftRestore (Row.mk (some n) c b d k :: rows) = c :: leftRestore rows := by
  simp [leftRestore]

theorem leftRestore_cons_none (c : Option String) (b : Option Nat)
    (d : Option String) (k : String) (rows : List Row) :
    leftRestore (Row.mk none c b d k :: rows) = leftRestore rows := by
  simp [leftRestore]

theorem rightRestore_cons_some (a : Option Nat) (c : Option String) (n : Nat)
    (d : Option String) (k : String) (rows : List Row) :
    rightRestore (Row.mk a c (some n) d k :: rows) = d :: rightRestore rows := by
  simp [rightRestore]

theorem rightRestore_cons_none (a : Option Nat) (c : Option String)
    (d : Option String) (k : String) (rows : List Row) :
    rightRestore (Row.mk a c none d k :: rows) = rightRestore rows := by
  simp [rightRestore]

theorem drop_map_some (l : List String) (n : Nat) (h : n < l.length) :
    (l.drop n).map some = some l[n] :: (l.drop (n + 1)).map some := by
  rw [List.drop_eq_getElem_cons h, List.map_cons]

theorem go_restore (ll rl lcs : List String) :
    ∀ fuel li ri ci rows, go ll rl lcs fuel li ri ci = some rows →
      leftRestore rows = (ll.drop li).map some ∧
      rightRestore rows = (rl.drop ri).map some := by
  intro fuel
  induction fuel with
  | zero =>
    intro li ri ci rows h
    rw [go] at h
    by_cases hcond : li < ll.length ∨ ri < rl.length
    · rw [if_pos hcond] at h
      cases h
    · rw [if_neg hcond] at h
      injection h with h2
      subst h2
      push_neg at hcond
      rw [List.drop_eq_nil_of_le hcond.1, List.drop_eq_nil_of_le hcond.2]
      exact ⟨rfl, rfl⟩
  | succ fuel ih =>
    intro li ri ci rows h
    rw [go] at h
    by_cases hcond : li < ll.length ∨ ri < rl.length
    swap
    · rw [if_neg hcond] at h
      injection h with h2
      subst h2
      push_neg at hcond
      rw [List.drop_eq_nil_of_le hcond.1, List.drop_eq_nil_of_le hcond.2]
      exact ⟨rfl, rfl⟩
    rw [if_pos hcond] at h
    by_cases hb1 : ci < lcs.length ∧ li < ll.length ∧ ri < rl.length ∧
        ll.getD li "" = lcs.getD ci "" ∧ rl.getD ri "" = lcs.getD ci ""
    · rw [if_pos hb1] at h
      rcases Option.map_eq_some'.1 h with ⟨rows', hgo, rfl⟩
      obtain ⟨ihl, ihr⟩ := ih _ _ _ _ hgo
      constructor
      · rw [leftRestore_cons_some, ihl, drop_map_some ll li hb1.2.1]
        congr 1
        exact List.get?_eq_getElem? ll li ▸ List.getElem?_eq_getElem hb1.2.1
      · rw [rightRestore_cons_some, ihr, drop_map_some rl ri hb1.2.2.1]
        congr 1
        exact List.get?_eq_getElem? rl ri ▸ List.getElem?_eq_getElem hb1.2.2.1
    rw [if_neg hb1] at h
    by_cases hb2 : ci < lcs.length ∧ li < ll.length ∧ ll.getD li "" = lcs.getD ci ""
    · rw [if_pos hb2] at h
      rcases Option.map_eq_some'.1 h with ⟨rows', hgo, rfl⟩
      have hri : ri < rl.length := by
        by_contra hri
        rw [go_stuck_right ll rl lcs fuel li (ri + 1) ci (by omega)
          hb2.1 hb2.2.1 hb2.2.2] at hgo
        cases hgo
      obtain ⟨ihl, ihr⟩ := ih _ _ _ _ hgo
      constructor
      · rw [leftRestore_cons_none, ihl]
      · rw [rightRestore_cons_some, ihr, drop_map_some rl ri hri]
        congr 1
        exact List.get?_eq_getElem? rl ri ▸ List.getElem?_eq_getElem hri
    rw [if_neg hb2] at h
    by_cases hb3 : ci < lcs.length ∧ ri < rl.length ∧ rl.getD ri "" = lcs.getD ci ""
    · rw [if_pos hb3] at h
      rcases Option.map_eq_some'.1 h with ⟨rows', hgo, rfl⟩
      have hli : li < ll.length := by
        by_contra hli
        rw [go_stuck_left ll rl lcs fuel (li + 1) ri ci (by omega)
          hb3.1 hb3.2.1 hb3.2.2] at hgo
        cases hgo
      obtain ⟨ihl, ihr⟩ := ih _ _ _ _ hgo
      constructor
      · rw [leftRestore_cons_some, ihl, drop_map_some ll li hli]
        congr 1
        exact List.get?_eq_getElem? ll li ▸ List.getElem?_eq_getElem hli
      · rw [rightRestore_cons_none, ihr]
    rw [if_neg hb3] at h
    by_cases hb4 : li < ll.length ∧ ri < rl.length
    · rw [if_pos hb4] at h
      rcases Option.map_eq_some'.1 h with ⟨rows', hgo, rfl⟩
      obtain ⟨ihl, ihr⟩ := ih _ _ _ _ hgo
      constructor
      · rw [leftRestore_cons_some, ihl, drop_map_some ll li hb4.1]
        congr 1
        exact List.get?_eq_getElem? ll li ▸ List.getElem?_eq_getElem hb4.1
      · rw [rightRestore_cons_some, ihr, drop_map_some rl ri hb4.2]
        congr 1
        exact List.get?_eq_getElem? rl ri ▸ List.getElem?_eq_getElem hb4.2
    rw [if_neg hb4] at h
    by_cases hb5 : li < ll.length
    · rw [if_pos hb5] at h
      rcases Option.map_eq_some'.1 h with ⟨rows', hgo, rfl⟩
      obtain ⟨ihl, ihr⟩ := ih _ _ _ _ hgo
      constructor
      · rw [leftRestore_cons_some, ihl, drop_map_some ll li hb5]
        congr 1
        exact List.get?_eq_getElem? ll li ▸ List.getElem?_eq_getElem hb5
      · rw [rightRestore_cons_none, ihr]
    · rw [if_neg hb5] at h
      rcases Option.map_eq_some'.1 h with ⟨rows', hgo, rfl⟩
      have hri : ri < rl.length := by
        rcases hcond with hc | hc
        · exact absurd hc hb5
        · exact hc
      obtain ⟨ihl, ihr⟩ := ih _ _ _ _ hgo
      constructor
      · rw [leftRestore_cons_none, ihl]
      · rw [rightRestore_cons_some, ihr, drop_map_some rl ri hri]
        congr 1
        exact List.get?_eq_getElem? rl ri ▸ List.getElem?_eq_getElem hri

/-- C9: whenever the replay loop of the LCS line diff terminates and yields
an aligned-row sequence, the alignment is lossless: reading off, in order,
the left content of every row that carries a left line number reproduces the
left line sequence exactly, and likewise on the right. -/
theorem claim_c9_roundtrip :
    ∀ (fuel : Nat) (ll rl : List String) (rows : List Row),
      createLineDiff fuel ll rl = some rows →
      leftRestore rows = ll.map some ∧ rightRestore rows = rl.map some := by
  intro fuel ll rl rows h
  have h2 := go_restore ll rl (btrack ll rl ll.length rl.length) fuel 0 0 0 rows h
  simpa using h2

/-- Witness for C9: a terminating run on the one-line inputs a and a
produces a single unchanged row, and restoring either side reproduces the
input lines. -/
theorem claim_c9_witness :
    createLineDiff 2 ["a"] ["a"] =
      some [Row.mk (some 1) (some "a") (some 1) (some "a") "unchanged"] ∧
    leftRestore [Row.mk (some 1) (some "a") (some 1) (some "a") "unchanged"] =
      (["a"] : List String).map some ∧
    rightRestore [Row.mk (some 1) (some "a") (some 1) (some "a") "unchanged"] =
      (["a"] : List String).map some := by
  have heval : createLineDiff 2 ["a"] ["a"] =
      some [Row.mk (some 1) (some "a") (some 1) (some "a") "unchanged"] := by
    simp [createLineDiff, go, btrack, dp]
  exact ⟨heval, (claim_c9_roundtrip 2 ["a"] ["a"] _ heval).1,
    (claim_c9_roundtrip 2 ["a"] ["a"] _ heval).2⟩

end LineDiff
